import Mathlib

/-!
Verification of the translation-assistant template engine
(`src/translation-assistant.js`) against its specification.

Strings are modelled as `List Char`.  The JavaScript regex operations used by
the source (`String.match`, `String.replace` with the four fixed patterns) are
modelled by a generic left-to-right scanner (`tokenize`) driven by a
per-pattern matching step.  Each step function mirrors the backtracking
behaviour of the corresponding JavaScript regex on that pattern.
-/

set_option maxHeartbeats 1000000

namespace TA

/-- A ka_locale as the source receives it; `none` models JavaScript
`undefined` (the value of `this.lang` while the constructor is still running
`getSuggestionGroups`). -/
abbrev Lang := Option String

/-! ## Generic scanning -/

/-- One scanning step at the current position.  `some (a, consumed, rest)`
means the pattern matches a non-empty prefix `consumed`, producing data `a`
and leaving `rest`; `none` means no match at this position. -/
abbrev MStep (α : Type) := List Char → Option (α × List Char × List Char)

/-- Wellformedness of a step: a match consumes a non-empty prefix. -/
def StepWF (f : MStep α) : Prop :=
  ∀ s a c r, f s = some (a, c, r) → s = c ++ r ∧ c ≠ []

/-- A scanned item: either a plain character or a pattern match, with the
consumed text. -/
inductive Tok (α : Type) where
  | chr (c : Char)
  | tok (a : α) (consumed : List Char)
deriving DecidableEq

/-- Fueled left-to-right scan: at each position try the step; on a match,
emit it and continue after the consumed text (JS `lastIndex` behaviour); on
no match, keep the character and advance by one. -/
def tokF (f : MStep α) : Nat → List Char → List (Tok α)
  | 0, s => s.map .chr
  | _ + 1, [] => []
  | fuel + 1, c :: t =>
    match f (c :: t) with
    | some (a, cs, r) => .tok a cs :: tokF f fuel r
    | none => .chr c :: tokF f fuel t

/-- The scan of a string, with enough fuel. -/
def tokenize (f : MStep α) (s : List Char) : List (Tok α) := tokF f s.length s

/-- The text a token list stands for. -/
def toksText : List (Tok α) → List Char
  | [] => []
  | .chr c :: ts => c :: toksText ts
  | .tok _ cs :: ts => cs ++ toksText ts

/-- The consumed strings of the matches, in order (JS `String.match` with a
global regex). -/
def toksMatches : List (Tok α) → List (List Char)
  | [] => []
  | .chr _ :: ts => toksMatches ts
  | .tok _ cs :: ts => cs :: toksMatches ts

/-- The data of the matches, in order (capture groups). -/
def toksData : List (Tok α) → List α
  | [] => []
  | .chr _ :: ts => toksData ts
  | .tok a _ :: ts => a :: toksData ts

/-- Replace every match by a fixed string (JS `String.replace` with a global
regex and a plain replacement containing no `$` patterns). -/
def toksSubstConst (repl : List Char) : List (Tok α) → List Char
  | [] => []
  | .chr c :: ts => c :: toksSubstConst repl ts
  | .tok _ _ :: ts => repl ++ toksSubstConst repl ts

/-- Replace every match by a function of its text. -/
def toksSubstEach (g : List Char → List Char) : List (Tok α) → List Char
  | [] => []
  | .chr c :: ts => c :: toksSubstEach g ts
  | .tok _ cs :: ts => g cs ++ toksSubstEach g ts

/-- Replace every match using a counter-advancing callback (JS `replace` with
a function that reads and increments an outer index variable). -/
def toksSubstCb (vals : Nat → List Char) : List (Tok α) → Nat → List Char × Nat
  | [], i => ([], i)
  | .chr c :: ts, i =>
    let (out, j) := toksSubstCb vals ts i
    (c :: out, j)
  | .tok _ _ :: ts, i =>
    let (out, j) := toksSubstCb vals ts (i + 1)
    (vals i ++ out, j)

/-- `s.replace(regex, repl)` for a global regex modelled by `f`. -/
def replaceAllK (f : MStep α) (repl : List Char) (s : List Char) : List Char :=
  toksSubstConst repl (tokenize f s)

/-! ## The four fixed patterns -/

/-- Matching of `(\\\$|[^$])+\$` after the opening `$` of `MATH_REGEX`,
including the closing `$`, mirroring the JS backtracking engine: at each
position first try to extend with an `\$` unit, then with a `[^$]` unit, and
only then close at a `$`.  Returns the consumed characters (ending with the
closing `$`) and the rest. -/
def mathRest : List Char → Option (List Char × List Char)
  | [] => none
  | '$' :: t => some (['$'], t)
  | '\\' :: '$' :: t2 =>
    match mathRest t2 with
    | some (u, r) => some ('\\' :: '$' :: u, r)
    | none => some (['\\', '$'], t2)
  | c :: t =>
    match mathRest t with
    | some (u, r) => some (c :: u, r)
    | none => none

/-- `MATH_REGEX = /\$(\\\$|[^\$])+\$/g`: a `$`, at least one unit, a `$`. -/
def mathStep : MStep Unit
  | '$' :: t =>
    match t with
    | '$' :: _ => none
    | _ =>
      match mathRest t with
      | some (u, r) => some ((), '$' :: u, r)
      | none => none
  | _ => none

/-- `GRAPHIE_REGEX = /\!\[\]\([^)]+\)/g`. -/
def graphieStep : MStep Unit
  | '!' :: '[' :: ']' :: '(' :: t =>
    match t.dropWhile (· ≠ ')') with
    | ')' :: r =>
      if (t.takeWhile (· ≠ ')')).isEmpty then none
      else some ((), '!' :: '[' :: ']' :: '(' :: (t.takeWhile (· ≠ ')') ++ [')']), r)
    | _ => none
  | _ => none

/-- `WIDGET_REGEX = /\[\[[\u2603][^\]]+\]\]/g`. -/
def widgetStep : MStep Unit
  | '[' :: '[' :: '\u2603' :: t =>
    match t.dropWhile (· ≠ ']') with
    | ']' :: ']' :: r =>
      if (t.takeWhile (· ≠ ']')).isEmpty then none
      else some ((), '[' :: '[' :: '\u2603' :: (t.takeWhile (· ≠ ']') ++ [']', ']']), r)
    | _ => none
  | _ => none

/-- `TEXT_REGEX = /\\text{([^}]*)}/g`; the data is the capture group. -/
def textStep : MStep (List Char)
  | '\\' :: 't' :: 'e' :: 'x' :: 't' :: '\x7b' :: t =>
    match t.dropWhile (· ≠ '\x7d') with
    | '\x7d' :: r =>
      some (t.takeWhile (· ≠ '\x7d'),
        '\\' :: 't' :: 'e' :: 'x' :: 't' :: '\x7b' :: (t.takeWhile (· ≠ '\x7d') ++ ['\x7d']), r)
    | _ => none
  | _ => none

/-- A literal (metacharacter-free) pattern as a global regex. -/
def litStep (pat : List Char) : MStep Unit := fun s =>
  if pat ≠ [] ∧ pat.isPrefixOf s then some ((), pat, s.drop pat.length) else none

/-- The math placeholder `'__MATH__'`. -/
def mathPH : List Char := "__MATH__".data

/-- The graphie placeholder `'__GRAPHIE__'`. -/
def graphiePH : List Char := "__GRAPHIE__".data

/-- The widget placeholder `'__WIDGET__'`. -/
def widgetPH : List Char := "__WIDGET__".data

/-- `/__MATH__[\t ]*__WIDGET__/g`: the math placeholder, a possibly empty run
of tabs and spaces, the widget placeholder. -/
def collapseStep : MStep Unit := fun s =>
  if mathPH.isPrefixOf s then
    if widgetPH.isPrefixOf ((s.drop mathPH.length).dropWhile (fun c => c = '\t' || c = ' ')) then
      some ((),
        mathPH ++ (s.drop mathPH.length).takeWhile (fun c => c = '\t' || c = ' ') ++ widgetPH,
        ((s.drop mathPH.length).dropWhile (fun c => c = '\t' || c = ' ')).drop widgetPH.length)
    else none
  else none

/-! ## Line splitting and trimming -/

/-- `str.split('\n\n')` (the source's `LINE_BREAK`): leftmost, non
overlapping. -/
def splitLB : List Char → List (List Char)
  | [] => [[]]
  | '\n' :: '\n' :: rest => [] :: splitLB rest
  | c :: rest =>
    match splitLB rest with
    | [] => [[c]]
    | h :: t => (c :: h) :: t

/-- `arr.join('\n\n')`. -/
def joinLB : List (List Char) → List Char
  | [] => []
  | [l] => l
  | l :: ls => l ++ '\n' :: '\n' :: joinLB ls

/-- JavaScript's whitespace class for `String.prototype.trim`. -/
def isJsWs (c : Char) : Bool :=
  c = ' ' || c = '\t' || c = '\n' || c = '\r' || c = '\x0b' || c = '\x0c' ||
  c.toNat = 0xa0 || c.toNat = 0x1680 ||
  (0x2000 ≤ c.toNat && c.toNat ≤ 0x200a) ||
  c.toNat = 0x2028 || c.toNat = 0x2029 || c.toNat = 0x202f ||
  c.toNat = 0x205f || c.toNat = 0x3000 || c.toNat = 0xfeff

/-- `str.trim()`. -/
def jsTrim (s : List Char) : List Char :=
  ((s.dropWhile isJsWs).reverse.dropWhile isJsWs).reverse

/-! ## Substring and search helpers -/

/-- Whether `pat` occurs as a contiguous substring. -/
def occursIn (pat : List Char) : List Char → Bool
  | [] => pat.isEmpty
  | c :: t => pat.isPrefixOf (c :: t) || occursIn pat t

/-- `Array.prototype.indexOf`: index of the first element equal to `x`. -/
def jsIndexOf (x : List Char) : List (List Char) → Option Nat
  | [] => none
  | y :: ys => if y = x then some 0 else (jsIndexOf x ys).map (· + 1)

/-- Concatenation of a list of lists. -/
def catMap (f : α → List β) : List α → List β
  | [] => []
  | x :: xs => f x ++ catMap f xs

/-! ## Kinds, math occurrences, the per-language rewriter -/

/-- The three special-substring kinds (the source dispatches on the identity
of the regex object passed to `getMapping`; the three call sites pass exactly
these three). -/
inductive Kind where
  | math
  | graphie
  | widget
deriving DecidableEq

/-- The three kind-specific mismatch errors thrown by `getMapping`. -/
inductive MappingError where
  | mathMismatch
  | graphieMismatch
  | widgetMismatch
deriving DecidableEq

/-- The error `getMapping` throws for each kind. -/
def Kind.mismatch : Kind → MappingError
  | .math => .mathMismatch
  | .graphie => .graphieMismatch
  | .widget => .widgetMismatch

/-- The regex belonging to a kind. -/
def kindStep : Kind → MStep Unit
  | .math => mathStep
  | .graphie => graphieStep
  | .widget => widgetStep

/-- `str.match(regex) || []` for the kind's regex. -/
def matchesOf (k : Kind) (s : List Char) : List (List Char) :=
  toksMatches (tokenize (kindStep k) s)

/-- The pattern `\\sin` replaced by `translateMath` for Portuguese. -/
def sinPat : List Char := "\\sin".data

/-- The replacement `'\\operatorname\{sen\}'` (a JS string equal to
`\operatorname{sen}`). -/
def senRepl : List Char := "\\operatorname\x7bsen\x7d".data

/-- `translateMath`: for `lang === 'pt'` replace every `\sin` by
`\operatorname{sen}`; identity for every other language. -/
def translateMath (m : List Char) (lang : Lang) : List Char :=
  if lang = some "pt" then replaceAllK (litStep sinPat) senRepl m else m

/-! ## The math dictionary -/

/-- `` `\text{${text}}` ``. -/
def textWrap (txt : List Char) : List Char :=
  "\\text\x7b".data ++ txt ++ ['\x7d']

/-- Application of one dictionary entry: the source builds
`new RegExp("\\\\text{" + english + "}", 'g')` and replaces by
`` `\text{${translated}}` ``; modelled as a literal replacement, which is
exact whenever the fragment texts contain no regex metacharacters (which
also rules out `$`-patterns in the replacement string).  The `SyntaxError`
the constructor throws on a syntactically invalid dynamically built
pattern is modelled separately by `getMappingE`. -/
def applyEntry (s : List Char) (e : List Char × List Char) : List Char :=
  replaceAllK (litStep (textWrap e.1)) (textWrap e.2) s

/-- The `for (const [englishText, translatedText] of Object.entries(dict))`
replacement loop. -/
def applyDict (entries : List (List Char × List Char)) (s : List Char) : List Char :=
  entries.foldl applyEntry s

/-- Whether a string is a canonical non-negative integer numeral; JavaScript
enumerates such object keys first, in ascending numeric order.  (The source's
dictionary keys are `\text{}` contents and math strings.  The `2^32 - 2`
upper bound on JavaScript array indices is not modelled; it would affect
only the enumeration order of numeral keys of ten or more digits.) -/
def isArrayIndexKey (k : List Char) : Bool :=
  !k.isEmpty && k.all (·.isDigit) && (k = ['0'] || k.head? ≠ some '0')

/-- Numeric comparison of two canonical numerals. -/
def numKeyLt (a b : List Char) : Bool :=
  a.length < b.length ||
    (a.length = b.length && decide (a.map Char.toNat < b.map Char.toNat))

/-- Insertion into an ascending list of numerals. -/
def insertNumKey (k : List Char) : List (List Char) → List (List Char)
  | [] => [k]
  | x :: xs => if numKeyLt k x then k :: x :: xs else x :: insertNumKey k xs

/-- JavaScript's own-property enumeration order: integer-indexed keys first in
ascending numeric order, then the remaining keys in insertion order. -/
def jsKeysOrder (keys : List (List Char)) : List (List Char) :=
  ((keys.filter isArrayIndexKey).foldl (fun acc k => insertNumKey k acc) []) ++
    keys.filter (fun k => !isArrayIndexKey k)

/-- `Object.entries` of an insertion-ordered object. -/
def jsEntries (d : List (List Char × List Char)) : List (List Char × List Char) :=
  (jsKeysOrder (d.map Prod.fst)).filterMap
    (fun k => (d.find? (fun e => e.1 = k)).map (fun e => (k, e.2)))

/-- `obj[k] = v` on an insertion-ordered object: update in place, or append. -/
def objSet (d : List (List Char × List Char)) (k v : List Char) :
    List (List Char × List Char) :=
  if d.any (fun e => e.1 = k) then
    d.map (fun e => if e.1 = k then (k, v) else e)
  else d ++ [(k, v)]

/-- A math string with every `\text{...}` replaced by `__TEXT__`. -/
def normTexts (m : List Char) : List Char :=
  replaceAllK textStep "__TEXT__".data m

/-- Push a value onto the array stored at `key` (creating it), as
`getMathDictionary`'s `inputMap`/`outputMap` construction does. -/
def bucketAdd (mp : List (List Char × List (List Char))) (key v : List Char) :
    List (List Char × List (List Char)) :=
  if mp.any (fun e => e.1 = key) then
    mp.map (fun e => if e.1 = key then (e.1, e.2 ++ [v]) else e)
  else mp ++ [(key, [v])]

/-- Group math occurrences by their `__TEXT__`-normalized form. -/
def buildMap (ms : List (List Char)) : List (List Char × List (List Char)) :=
  ms.foldl (fun mp m => bucketAdd mp (normTexts m) m) []

/-- `Array.prototype.toString`: elements joined with `,` (the source passes
an array of strings where `allMatches` expects a string, so the regex engine
coerces it with this join). -/
def joinComma : List (List Char) → List Char
  | [] => []
  | [x] => x
  | x :: xs => x ++ ',' :: joinComma xs

/-- The distinct `\text{}` contents of a string in first-occurrence order
(the source collects them as keys of an object used as a set). -/
def textKeys (s : List Char) : List (List Char) :=
  (toksData (tokenize textStep s)).foldl
    (fun acc t => if acc.contains t then acc else acc ++ [t]) []

/-- Pair the i-th English text with the i-th translated text; a missing
translated text stores JavaScript `undefined`, which later stringifies to
`"undefined"` inside the replacement. -/
def pairTexts (dict : List (List Char × List Char)) (ins outs : List (List Char)) :
    List (List Char × List Char) :=
  (ins.zip (List.range ins.length)).foldl
    (fun d p => objSet d p.1 ((outs.get? p.2).getD "undefined".data)) dict

/-- `getMathDictionary(englishStr, translatedStr)`. -/
def getMathDictionary (E T : List Char) : List (List Char × List Char) :=
  let inputMap := buildMap (matchesOf .math E)
  let outputMap := buildMap (matchesOf .math T)
  (jsKeysOrder (inputMap.map Prod.fst)).foldl (fun dict key =>
    if occursIn "__TEXT__".data key then
      match inputMap.find? (fun e => e.1 = key),
            outputMap.find? (fun e => e.1 = key) with
      | some ein, some eout =>
        pairTexts dict
          (jsKeysOrder (textKeys (joinComma ein.2)))
          (jsKeysOrder (textKeys (joinComma eout.2)))
      | _, _ => dict
    else dict) []

/-! ## getMapping -/

/-- The transformation `getMapping` applies to each translated occurrence
before searching: the per-language rewriter, for math only. -/
def procOutput (k : Kind) (lang : Lang) (o : List Char) : List Char :=
  if k = .math then translateMath o lang else o

/-- The English occurrence list `getMapping` searches in: for math, each
occurrence has the dictionary substitutions applied. -/
def procInputs (k : Kind) (dict : List (List Char × List Char)) (E : List Char) :
    List (List Char) :=
  if k = .math then (matchesOf .math E).map (applyDict (jsEntries dict))
  else matchesOf k E

/-- The `outputs.forEach` loop: record the first matching input index for
each output, throwing the kind's mismatch error when there is none. -/
def mapOutputs (inputs : List (List Char)) (k : Kind) (lang : Lang) :
    List (List Char) → Except MappingError (List Nat)
  | [] => .ok []
  | o :: os =>
    match jsIndexOf (procOutput k lang o) inputs with
    | some i => (mapOutputs inputs k lang os).map (i :: ·)
    | none => .error k.mismatch

/-- `getMapping(englishStr, translatedStr, lang, findRegex, mathDictionary)`,
with the thrown mismatch errors modelled as `Except` errors. -/
def getMapping (E T : List Char) (lang : Lang) (k : Kind)
    (dict : List (List Char × List Char)) : Except MappingError (List Nat) :=
  mapOutputs (procInputs k dict E) k lang (matchesOf k T)

/-- The template object built by `createTemplate`. -/
structure Template where
  lines : List (List Char)
  mathMapping : List Nat
  graphieMapping : List Nat
  widgetMapping : List Nat
  mathDictionary : List (List Char × List Char)
deriving DecidableEq

/-- One translated line with math, then graphie, then widget occurrences
replaced by their placeholders. -/
def phLine (l : List Char) : List Char :=
  replaceAllK widgetStep widgetPH
    (replaceAllK graphieStep graphiePH
      (replaceAllK mathStep mathPH l))

/-- `createTemplate(englishStr, translatedStr, lang)`: the `try`/`catch`
around the three `getMapping` calls returns the thrown error as a value. -/
def createTemplate (E T : List Char) (lang : Lang) : Except MappingError Template :=
  let translatedLines := splitLB T
  let dict := getMathDictionary E T
  match getMapping E T lang .math dict with
  | .error e => .error e
  | .ok mm =>
    match getMapping E T lang .graphie dict with
    | .error e => .error e
    | .ok gm =>
      match getMapping E T lang .widget dict with
      | .error e => .error e
      | .ok wm => .ok ⟨translatedLines.map phLine, mm, gm, wm, dict⟩

/-- JavaScript `undefined` coerced to a string by `String.replace`. -/
def undefinedS : List Char := "undefined".data

/-- `vals[mapping[i]]` with JavaScript's out-of-bounds behaviour: a missing
index yields `undefined`, which the replacement stringifies. -/
def lookupVal (mapping : List Nat) (vals : List (List Char)) (i : Nat) : List Char :=
  match mapping.get? i with
  | some j => (vals.get? j).getD undefinedS
  | none => undefinedS

/-- One template line populated: the three placeholder replacements in
order, threading the three running cursors. -/
def subLine (t : Template) (maths graphies widgets : List (List Char))
    (l : List Char) (mi gi wi : Nat) : List Char × Nat × Nat × Nat :=
  let p1 := toksSubstCb (lookupVal t.mathMapping maths) (tokenize (litStep mathPH) l) mi
  let p2 := toksSubstCb (lookupVal t.graphieMapping graphies)
    (tokenize (litStep graphiePH) p1.1) gi
  let p3 := toksSubstCb (lookupVal t.widgetMapping widgets)
    (tokenize (litStep widgetPH) p2.1) wi
  (p3.1, p1.2, p2.2, p3.2)

/-- The `englishLines.map` loop of `populateTemplate`; reading
`template.lines[index]` past the end is the JavaScript `TypeError` (modelled
as `none`). -/
def popGo (t : Template) (maths graphies widgets : List (List Char)) :
    List (List Char) → List (List Char) → Nat → Nat → Nat →
    Option (List (List Char))
  | [], _, _, _, _ => some []
  | _ :: _, [], _, _, _ => none
  | _ :: es, tl :: tls, mi, gi, wi =>
    let s := subLine t maths graphies widgets tl mi gi wi
    (popGo t maths graphies widgets es tls s.2.1 s.2.2.1 s.2.2.2).map (s.1 :: ·)

/-- `populateTemplate(template, englishStr, lang)`; `none` models the crash
on a missing template line, every other outcome is the returned string. -/
def populateTemplate (t : Template) (E : List Char) (lang : Lang) :
    Option (List Char) :=
  let maths := (matchesOf .math E).map
    (fun m => applyDict (jsEntries t.mathDictionary) (translateMath m lang))
  let graphies := matchesOf .graphie E
  let widgets := matchesOf .widget E
  (popGo t maths graphies widgets (splitLB E) t.lines 0 0 0).map joinLB

/-! ## Group keys -/

/-- UTF-16 code units of a string (JavaScript string comparison operates on
these). -/
def utf16Units (s : List Char) : List Nat :=
  catMap (fun c =>
    if c.toNat < 0x10000 then [c.toNat]
    else [0xd800 + (c.toNat - 0x10000) / 0x400, 0xdc00 + (c.toNat - 0x10000) % 0x400]) s

/-- Lexicographic order on code-unit sequences. -/
def unitsLt : List Nat → List Nat → Bool
  | [], [] => false
  | [], _ :: _ => true
  | _ :: _, [] => false
  | a :: as, b :: bs => a < b || (a = b && unitsLt as bs)

/-- JavaScript `<` on strings. -/
def jsStrLt (a b : List Char) : Bool := unitsLt (utf16Units a) (utf16Units b)

/-- Insertion into a sorted list under `jsStrLt`. -/
def sortInsert (x : List Char) : List (List Char) → List (List Char)
  | [] => [x]
  | y :: ys => if jsStrLt x y then x :: y :: ys else y :: sortInsert x ys

/-- `Array.prototype.sort()` with the default (UTF-16 lexicographic)
comparison. -/
def jsSort (l : List (List Char)) : List (List Char) := l.foldr sortInsert []

/-- The `texts` component of a group key: per math occurrence, the sorted
list of its `\text{}` contents. -/
def keyTexts (s : List Char) : List (List (List Char)) :=
  (matchesOf .math s).map (fun m => jsSort (toksData (tokenize textStep m)))

/-- The `__MATH__ __WIDGET__` whitespace-collapsing replacement. -/
def collapseMW (s : List Char) : List Char :=
  toksSubstConst "__MATH__ __WIDGET__".data (tokenize collapseStep s)

/-- The `str` component of a group key: placeholders substituted, the
math/widget pair collapsed, every paragraph trimmed. -/
def keySkeleton (s : List Char) : List Char :=
  joinLB ((splitLB (collapseMW
    (replaceAllK widgetStep widgetPH
      (replaceAllK graphieStep graphiePH
        (replaceAllK mathStep mathPH s))))).map jsTrim)

/-- The structured content of a group key. -/
def keyObj (s : List Char) : List Char × List (List (List Char)) :=
  (keySkeleton s, keyTexts s)

/-! ## JSON serialization (`JSON.stringify`) -/

/-- Lowercase hex digit. -/
def hexDigit (n : Nat) : Char :=
  if n < 10 then Char.ofNat ('0'.toNat + n) else Char.ofNat ('a'.toNat + (n - 10))

/-- `JSON.stringify`'s escaping of one character. -/
def escChar (c : Char) : List Char :=
  if c = '"' then ['\\', '"']
  else if c = '\\' then ['\\', '\\']
  else if c = '\x08' then ['\\', 'b']
  else if c = '\t' then ['\\', 't']
  else if c = '\n' then ['\\', 'n']
  else if c = '\x0c' then ['\\', 'f']
  else if c = '\r' then ['\\', 'r']
  else if c.toNat < 0x20 then
    ['\\', 'u', '0', '0', hexDigit (c.toNat / 16), hexDigit (c.toNat % 16)]
  else [c]

/-- A JSON string literal. -/
def serStr (s : List Char) : List Char := '"' :: catMap escChar s ++ ['"']

/-- Comma-joined serialized elements. -/
def serList (ser : α → List Char) : List α → List Char
  | [] => []
  | [x] => ser x
  | x :: xs => ser x ++ ',' :: serList ser xs

/-- A JSON array. -/
def serArr (ser : α → List Char) (l : List α) : List Char :=
  '[' :: serList ser l ++ [']']

/-- `JSON.stringify({str, texts})` of a key object. -/
def serKey (p : List Char × List (List (List Char))) : List Char :=
  "\x7b\"str\":".data ++ serStr p.1 ++ ",\"texts\":".data ++
    serArr (serArr serStr) p.2 ++ ['\x7d']

/-- `stringToGroupKey(str)`. -/
def stringToGroupKey (s : List Char) : List Char := serKey (keyObj s)

/-- The numeric value of a lowercase hex digit. -/
def hexVal (c : Char) : Nat :=
  if c.toNat ≤ '9'.toNat then c.toNat - '0'.toNat else c.toNat - 'a'.toNat + 10

/-- Decoder for one character of a JSON string body (the partial inverse of
`escChar`, used to prove the group-key serialization injective). -/
def unescChar : List Char → Option (Char × List Char)
  | '\\' :: 'u' :: '0' :: '0' :: d1 :: d2 :: r =>
    some (Char.ofNat (16 * hexVal d1 + hexVal d2), r)
  | '\\' :: '"' :: r => some ('"', r)
  | '\\' :: '\\' :: r => some ('\\', r)
  | '\\' :: 'b' :: r => some ('\x08', r)
  | '\\' :: 't' :: r => some ('\t', r)
  | '\\' :: 'n' :: r => some ('\n', r)
  | '\\' :: 'f' :: r => some ('\x0c', r)
  | '\\' :: 'r' :: r => some ('\r', r)
  | c :: r => some (c, r)
  | [] => none

/-! ## The suggestion engine -/

/-- An item, modelled by the results of the two caller-supplied accessors
`getEnglishStr` and `getTranslation` (`none` models a missing translation). -/
structure Item where
  english : List Char
  itemTranslated : Option (List Char)
deriving DecidableEq

/-- JavaScript truthiness of the accessor result: `undefined`, `null` and
`''` are falsy. -/
def truthy : Option (List Char) → Bool
  | some t => !t.isEmpty
  | none => false

instance [DecidableEq ε] [DecidableEq α] : DecidableEq (Except ε α) := fun a b =>
  match a, b with
  | .error e, .error f =>
    if h : e = f then .isTrue (by rw [h])
    else .isFalse (by intro hh; cases hh; exact h rfl)
  | .error _, .ok _ => .isFalse (by intro h; cases h)
  | .ok _, .error _ => .isFalse (by intro h; cases h)
  | .ok x, .ok y =>
    if h : x = y then .isTrue (by rw [h])
    else .isFalse (by intro hh; cases hh; exact h rfl)

/-- A suggestion group: its items, and `none` (no translated item),
`some (.error e)` (the construction failure stored by the `catch`), or
`some (.ok t)`. -/
structure SuggestionGroup where
  items : List Item
  template : Option (Except MappingError Template)
deriving DecidableEq

/-- Bucket insertion preserving encounter order. -/
def addItem (groups : List (List Char × List Item)) (key : List Char) (it : Item) :
    List (List Char × List Item) :=
  if groups.any (fun g => g.1 = key) then
    groups.map (fun g => if g.1 = key then (g.1, g.2 ++ [it]) else g)
  else groups ++ [(key, [it])]

/-- The first item of a bucket with a truthy translation. -/
def firstTranslated : List Item → Option Item
  | [] => none
  | it :: its => if truthy it.itemTranslated then some it else firstTranslated its

/-- `getSuggestionGroups(items)`; `langAtCall` is the value of `this.lang`
at the moment of the call. -/
def getSuggestionGroups (items : List Item) (langAtCall : Lang) :
    List (List Char × SuggestionGroup) :=
  let buckets := items.foldl
    (fun gs it => addItem gs (stringToGroupKey it.english) it) []
  buckets.map (fun g =>
    match firstTranslated g.2 with
    | some it =>
      (g.1, ⟨g.2, some (createTemplate it.english (it.itemTranslated.getD []) langAtCall)⟩)
    | none => (g.1, ⟨g.2, none⟩))

/-- The engine state after construction. -/
structure Assistant where
  suggestionGroups : List (List Char × SuggestionGroup)
  lang : Lang
deriving DecidableEq

/-- The source constructor runs `this.suggestionGroups =
this.getSuggestionGroups(allItems)` before `this.lang = lang`, so template
construction sees `this.lang === undefined`. -/
def mkAssistant (allItems : List Item) (lang : Lang) : Assistant :=
  ⟨getSuggestionGroups allItems none, lang⟩

/-- The group-lookup tail of `suggest` for one item. -/
def suggestLookup (a : Assistant) (it : Item) : Option (Item × Option (List Char)) :=
  match a.suggestionGroups.find? (fun g => g.1 = stringToGroupKey it.english) with
  | some g =>
    match g.2.template with
    | some (.error _) => some (it, none)
    | some (.ok t) =>
      match populateTemplate t it.english a.lang with
      | some s => some (it, some s)
      | none => none
    | none => some (it, none)
  | none => some (it, none)

/-- `suggest` for one item.  The `JSON.parse(normalStr).str` the source
tests is the `str` component of the key object (`JSON.parse` inverts
`JSON.stringify`). -/
def suggestOne (a : Assistant) (it : Item) : Option (Item × Option (List Char)) :=
  if (keyObj it.english).1 = mathPH then
    if occursIn "\\text".data it.english then suggestLookup a it
    else some (it, some (translateMath it.english a.lang))
  else if (keyObj it.english).1 = graphiePH ∨ (keyObj it.english).1 = widgetPH then
    some (it, some it.english)
  else suggestLookup a it

/-- `suggest(itemsToTranslate)`; `none` models a crash propagating out of
`populateTemplate`. -/
def suggest (a : Assistant) (items : List Item) :
    Option (List (Item × Option (List Char))) :=
  items.mapM (suggestOne a)

/-! ## The round-trip target and safety conditions (for the amended C2) -/

/-- The translated string with each math occurrence rewritten by the
per-language rewriter (the round-trip law's right-hand side). -/
def rewriteMaths (T : List Char) (lang : Lang) : List Char :=
  toksSubstEach (fun m => translateMath m lang) (tokenize mathStep T)

/-- One-pass scan for all three kinds, trying math, then graphie, then
widget at each position. -/
def mgwStep : MStep Kind := fun s =>
  match mathStep s with
  | some (_, cs, r) => some (Kind.math, cs, r)
  | none =>
    match graphieStep s with
    | some (_, cs, r) => some (Kind.graphie, cs, r)
    | none =>
      match widgetStep s with
      | some (_, cs, r) => some (Kind.widget, cs, r)
      | none => none

/-- Projection of a three-kind token list to the scan one kind's regex
should produce, with the other kinds' text as plain characters. -/
def projK (k : Kind) : List (Tok Kind) → List (Tok Unit)
  | [] => []
  | .chr c :: ts => .chr c :: projK k ts
  | .tok k' cs :: ts =>
    if k' = k then .tok () cs :: projK k ts
    else cs.map .chr ++ projK k ts

/-- The same projection over the line structure of a whole string, with the
paragraph separators as plain characters. -/
def projGlobal (k : Kind) : List (List (Tok Kind)) → List (Tok Unit)
  | [] => []
  | [l] => projK k l
  | l :: ls => projK k l ++ .chr '\n' :: .chr '\n' :: projGlobal k ls

/-- The graphie scan expected after math placeholder substitution. -/
def projPh1 : List (Tok Kind) → List (Tok Unit)
  | [] => []
  | .chr c :: ts => .chr c :: projPh1 ts
  | .tok .math _ :: ts => mathPH.map .chr ++ projPh1 ts
  | .tok .graphie cs :: ts => .tok () cs :: projPh1 ts
  | .tok .widget cs :: ts => cs.map .chr ++ projPh1 ts

/-- The widget scan expected after math and graphie placeholder
substitution. -/
def projPh2 : List (Tok Kind) → List (Tok Unit)
  | [] => []
  | .chr c :: ts => .chr c :: projPh2 ts
  | .tok .math _ :: ts => mathPH.map .chr ++ projPh2 ts
  | .tok .graphie _ :: ts => graphiePH.map .chr ++ projPh2 ts
  | .tok .widget cs :: ts => .tok () cs :: projPh2 ts

/-- Two consecutive underscores, the substring the placeholder tokens are
built from. -/
def dund : List Char := "__".data

/-- The occurrence texts of one kind among the one-pass tokens. -/
def kindTexts (k : Kind) : List (Tok Kind) → List (List Char)
  | [] => []
  | .chr _ :: ts => kindTexts k ts
  | .tok k2 cs :: ts => if k2 = k then cs :: kindTexts k ts else kindTexts k ts

/-- A segment of a line during one placeholder-substitution pass: inert
text, or an occurrence slot of the placeholder being replaced. -/
inductive Seg where
  | inert (s : List Char)
  | hit
deriving DecidableEq

/-- The text of a segment, `p` being the placeholder being replaced. -/
def segText (p : List Char) : Seg → List Char
  | .inert s => s
  | .hit => p

/-- The text of a segment list. -/
def segsText (p : List Char) : List Seg → List Char
  | [] => []
  | sg :: rest => segText p sg ++ segsText p rest

/-- The scan a placeholder pass is meant to produce on a segment list. -/
def segToks (p : List Char) : Seg → List (Tok Unit)
  | .inert s => s.map .chr
  | .hit => [.tok () p]

/-- The segments of a template line for the math pass: math placeholders
are the hits, plain characters and the other two placeholders are inert. -/
def segs1 : List (Tok Kind) → List Seg
  | [] => []
  | .chr c :: ts => .inert [c] :: segs1 ts
  | .tok .math _ :: ts => .hit :: segs1 ts
  | .tok .graphie _ :: ts => .inert graphiePH :: segs1 ts
  | .tok .widget _ :: ts => .inert widgetPH :: segs1 ts

/-- The segments of a line after the math pass, for the graphie pass: the
math slots hold the substituted values `mv`, graphie placeholders are the
hits. -/
def segs2r (mv : Nat → List Char) : List (Tok Kind) → Nat → List Seg
  | [], _ => []
  | .chr c :: ts, mi => .inert [c] :: segs2r mv ts mi
  | .tok .math _ :: ts, mi => .inert (mv mi) :: segs2r mv ts (mi + 1)
  | .tok .graphie _ :: ts, mi => .hit :: segs2r mv ts mi
  | .tok .widget _ :: ts, mi => .inert widgetPH :: segs2r mv ts mi

/-- The segments of a line after the math and graphie passes, for the
widget pass. -/
def segs3r (mv gv : Nat → List Char) :
    List (Tok Kind) → Nat → Nat → List Seg
  | [], _, _ => []
  | .chr c :: ts, mi, gi => .inert [c] :: segs3r mv gv ts mi gi
  | .tok .math _ :: ts, mi, gi => .inert (mv mi) :: segs3r mv gv ts (mi + 1) gi
  | .tok .graphie _ :: ts, mi, gi => .inert (gv gi) :: segs3r mv gv ts mi (gi + 1)
  | .tok .widget _ :: ts, mi, gi => .hit :: segs3r mv gv ts mi gi

/-- A fully populated line: every occurrence slot holds its value, the
cursors advancing left to right. -/
def lineFinal (mv gv wv : Nat → List Char) :
    List (Tok Kind) → Nat → Nat → Nat → List Char
  | [], _, _, _ => []
  | .chr c :: ts, mi, gi, wi => c :: lineFinal mv gv wv ts mi gi wi
  | .tok .math _ :: ts, mi, gi, wi =>
    mv mi ++ lineFinal mv gv wv ts (mi + 1) gi wi
  | .tok .graphie _ :: ts, mi, gi, wi =>
    gv gi ++ lineFinal mv gv wv ts mi (gi + 1) wi
  | .tok .widget _ :: ts, mi, gi, wi =>
    wv wi ++ lineFinal mv gv wv ts mi gi (wi + 1)

/-- Value stand-ins for checking the placeholder scans independently of the
English query: every substituted math value starts with `$`, every graphie
value with `!`. -/
def standM : Nat → List Char := fun _ => ['$']

/-- See `standM`. -/
def standG : Nat → List Char := fun _ => ['!']

/-- Segment lists that agree except that some inert slots hold, on the
left, a real value and, on the right, the one-character stand-in with the
same first character; the real value is nonempty, never contains two
consecutive underscores, does not end with an underscore, and starts with
a character foreign to the placeholder patterns. -/
inductive ParVals : List Seg → List Seg → Prop
  | nil : ParVals [] []
  | hit (r q : List Seg) : ParVals r q → ParVals (.hit :: r) (.hit :: q)
  | same (s : List Char) (r q : List Seg) : ParVals r q →
      ParVals (.inert s :: r) (.inert s :: q)
  | val (s : List Char) (b : Char) (r q : List Seg) :
      s.headI = b → (b = '$' ∨ b = '!' ∨ b = '[') → s ≠ [] →
      occursIn dund s = false → s.getLast? ≠ some '_' →
      ParVals r q → ParVals (.inert s :: r) (.inert [b] :: q)

/-- Per-line interference freedom: each of the three scans the source
performs while building a template line sees exactly the one-pass tokens
of its kind, and each of the three placeholder-replacement scans
`populateTemplate` later performs on the (stand-in) evolving line sees
exactly the inserted placeholders. -/
def lineOk (l : List Char) : Bool :=
  tokenize mathStep l = projK .math (tokenize mgwStep l) &&
  tokenize graphieStep (replaceAllK mathStep mathPH l) =
    projPh1 (tokenize mgwStep l) &&
  tokenize widgetStep (replaceAllK graphieStep graphiePH
    (replaceAllK mathStep mathPH l)) = projPh2 (tokenize mgwStep l) &&
  tokenize (litStep mathPH) (segsText mathPH (segs1 (tokenize mgwStep l))) =
    catMap (segToks mathPH) (segs1 (tokenize mgwStep l)) &&
  tokenize (litStep graphiePH)
      (segsText graphiePH (segs2r standM (tokenize mgwStep l) 0)) =
    catMap (segToks graphiePH) (segs2r standM (tokenize mgwStep l) 0) &&
  tokenize (litStep widgetPH)
      (segsText widgetPH (segs3r standM standG (tokenize mgwStep l) 0 0)) =
    catMap (segToks widgetPH) (segs3r standM standG (tokenize mgwStep l) 0 0)

/-- Whole-string interference freedom for the translated string: each
kind's global scan agrees with the per-line one-pass tokens (so no
occurrence spans a paragraph break and no two kinds overlap). -/
def alignedK (k : Kind) (T : List Char) : Bool :=
  tokenize (kindStep k) T = projGlobal k ((splitLB T).map (tokenize mgwStep))

/-- The properties of a substituted value that keep the later placeholder
scans faithful: it is nonempty, starts with the kind's lead character
(which occurs in no placeholder), contains no two consecutive underscores,
and does not end with an underscore. -/
def GoodVal (b : Char) (v : List Char) : Prop :=
  v.headI = b ∧ v ≠ [] ∧ occursIn dund v = false ∧ v.getLast? ≠ some '_'

/-- The safety conditions under which the round-trip law holds: no `\text{`
fragment, no two consecutive underscores (which would collide with the
placeholder tokens), equal paragraph counts, and interference-free
occurrences and placeholder scans in the translated string. -/
def RoundTripSafe (E T : List Char) : Bool :=
  !occursIn "\\text\x7b".data E && !occursIn "\\text\x7b".data T &&
  !occursIn dund E && !occursIn dund T &&
  (splitLB E).length = (splitLB T).length &&
  alignedK .math T && alignedK .graphie T && alignedK .widget T &&
  (splitLB T).all lineOk


/-! # Theorems -/

/-! ## Generic scanner lemmas -/

theorem stepwf_rest_lt {f : MStep α} (hf : StepWF f) {s : List Char}
    {a : α} {c r : List Char} (h : f s = some (a, c, r)) : r.length < s.length := by
  obtain ⟨hs, hc⟩ := hf _ _ _ _ h
  subst hs
  cases c with
  | nil => exact absurd rfl hc
  | cons x xs => simp [List.length_append]; omega

theorem tokF_fuel {f : MStep α} (hf : StepWF f) :
    ∀ n s, s.length ≤ n → tokF f n s = tokF f s.length s := by
  intro n
  induction n using Nat.strong_induction_on with
  | _ n ih =>
    intro s hs
    cases s with
    | nil => cases n <;> rfl
    | cons c t =>
      cases n with
      | zero => simp at hs
      | succ n' =>
        have hlen : t.length + 1 ≤ n' + 1 := by simpa using hs
        show tokF f (n' + 1) (c :: t) = tokF f (t.length + 1) (c :: t)
        cases hstep : f (c :: t) with
        | none =>
          simp only [tokF, hstep]
          rw [ih n' (by omega) t (by omega), ih t.length (by omega) t (le_refl _)]
        | some v =>
          obtain ⟨a, cs, r⟩ := v
          have hr : r.length < t.length + 1 := stepwf_rest_lt hf hstep
          simp only [tokF, hstep]
          rw [ih n' (by omega) r (by omega), ih t.length (by omega) r (by omega)]

theorem tokenize_nil {f : MStep α} : tokenize f [] = [] := rfl

theorem tokenize_tok {f : MStep α} (hf : StepWF f) {s : List Char}
    {a : α} {cs r : List Char} (h : f s = some (a, cs, r)) :
    tokenize f s = .tok a cs :: tokenize f r := by
  cases s with
  | nil =>
    obtain ⟨hs, hc⟩ := hf _ _ _ _ h
    have hcnil : cs = [] := by
      cases cs with
      | nil => rfl
      | cons x xs => simp at hs
    exact absurd hcnil hc
  | cons c t =>
    have hr : r.length < t.length + 1 := stepwf_rest_lt hf h
    show tokF f (t.length + 1) (c :: t) = _
    simp only [tokF, h]
    rw [tokF_fuel hf t.length r (by omega)]
    rfl

theorem tokenize_chr {f : MStep α} {c : Char} {t : List Char}
    (h : f (c :: t) = none) :
    tokenize f (c :: t) = .chr c :: tokenize f t := by
  show tokF f (t.length + 1) (c :: t) = _
  simp only [tokF, h]
  rfl

theorem toksText_tokenize {f : MStep α} (hf : StepWF f) :
    ∀ s, toksText (tokenize f s) = s := by
  have H : ∀ n (s : List Char), s.length ≤ n → toksText (tokenize f s) = s := by
    intro n
    induction n using Nat.strong_induction_on with
    | _ n ih =>
      intro s hs
      cases s with
      | nil => rfl
      | cons c t =>
        cases n with
        | zero => simp at hs
        | succ n' =>
          cases hstep : f (c :: t) with
          | none =>
            rw [tokenize_chr hstep]
            simp only [toksText]
            rw [ih n' (by omega) t (by simp at hs; omega)]
          | some v =>
            obtain ⟨a, cs, r⟩ := v
            have hr := stepwf_rest_lt hf hstep
            rw [tokenize_tok hf hstep]
            simp only [toksText]
            rw [ih n' (by omega) r (by simp at hs hr; omega)]
            exact ((hf _ _ _ _ hstep).1).symm
  intro s
  exact H s.length s (le_refl _)

/-- If the step fails at every suffix position, the scan keeps every
character. -/
theorem tokenize_all_chr {f : MStep α} :
    ∀ s, (∀ u v, s = u ++ v → f v = none) → tokenize f s = s.map .chr := by
  intro s
  induction s with
  | nil => intro _; rfl
  | cons c t ih =>
    intro h
    rw [tokenize_chr (h [] (c :: t) rfl)]
    simp only [List.map]
    rw [ih (fun u v huv => h (c :: u) v (by rw [huv]; rfl))]

/-- An inert prefix scans to plain characters in front of the scan of the
rest. -/
theorem tokenize_append_chr {f : MStep α} :
    ∀ p t, (∀ u v, p = u ++ v → v ≠ [] → f (v ++ t) = none) →
      tokenize f (p ++ t) = p.map .chr ++ tokenize f t := by
  intro p
  induction p with
  | nil => intro t _; rfl
  | cons c p' ih =>
    intro t h
    have h0 : f (c :: (p' ++ t)) = none := h [] (c :: p') rfl (by simp)
    rw [List.cons_append, tokenize_chr h0]
    simp only [List.map, List.cons_append]
    rw [ih t (fun u v huv hv => h (c :: u) v (by rw [huv]; rfl) hv)]

theorem toksSubstConst_map_chr (repl : List Char) :
    ∀ s : List Char, toksSubstConst (α := α) repl (s.map .chr) = s := by
  intro s
  induction s with
  | nil => rfl
  | cons c t ih => simp only [List.map, toksSubstConst, ih]

theorem toksSubstConst_append (repl : List Char) (ts us : List (Tok α)) :
    toksSubstConst repl (ts ++ us) =
      toksSubstConst repl ts ++ toksSubstConst repl us := by
  induction ts with
  | nil => rfl
  | cons t ts ih => cases t <;> simp [toksSubstConst, ih]

theorem toksSubstEach_append (g : List Char → List Char) (ts us : List (Tok α)) :
    toksSubstEach g (ts ++ us) = toksSubstEach g ts ++ toksSubstEach g us := by
  induction ts with
  | nil => rfl
  | cons t ts ih => cases t <;> simp [toksSubstEach, ih]

theorem toksMatches_append (ts us : List (Tok α)) :
    toksMatches (ts ++ us) = toksMatches ts ++ toksMatches us := by
  induction ts with
  | nil => rfl
  | cons t ts ih => cases t <;> simp [toksMatches, ih]

theorem toksData_append (ts us : List (Tok α)) :
    toksData (ts ++ us) = toksData ts ++ toksData us := by
  induction ts with
  | nil => rfl
  | cons t ts ih => cases t <;> simp [toksData, ih]

theorem toksMatches_map_chr (s : List Char) :
    toksMatches (α := α) (s.map .chr) = [] := by
  induction s with
  | nil => rfl
  | cons c t ih => simp only [List.map, toksMatches, ih]

theorem toksData_map_chr (s : List Char) :
    toksData (α := α) (s.map .chr) = [] := by
  induction s with
  | nil => rfl
  | cons c t ih => simp only [List.map, toksData, ih]

/-! ## Wellformedness of the step functions -/

theorem isPrefixOf_iff : ∀ p s : List Char, p.isPrefixOf s ↔ ∃ t, s = p ++ t := by
  intro p
  induction p with
  | nil => intro s; simp [List.isPrefixOf]
  | cons c p' ih =>
    intro s
    cases s with
    | nil => simp [List.isPrefixOf]
    | cons d t =>
      simp only [List.isPrefixOf, Bool.and_eq_true, beq_iff_eq, ih]
      constructor
      · rintro ⟨rfl, u, rfl⟩; exact ⟨u, rfl⟩
      · rintro ⟨u, h⟩
        rw [List.cons_append] at h
        cases h
        exact ⟨rfl, u, rfl⟩

theorem mathRest_split : ∀ t u r, mathRest t = some (u, r) → t = u ++ r ∧ u ≠ [] := by
  have H : ∀ n (t : List Char), t.length ≤ n →
      ∀ u r, mathRest t = some (u, r) → t = u ++ r ∧ u ≠ [] := by
    intro n
    induction n using Nat.strong_induction_on with
    | _ n ih =>
      intro t ht u r h
      rw [mathRest.eq_def] at h
      split at h
      · cases h
      · cases h
        exact ⟨rfl, by simp⟩
      · rename_i t2
        cases h2 : mathRest t2 with
        | some v =>
          obtain ⟨u2, r2⟩ := v
          rw [h2] at h
          cases h
          have hlen : t2.length ≤ n - 1 := by simp at ht; omega
          obtain ⟨he, _⟩ := ih (n - 1) (by simp at ht; omega) t2 hlen u2 r h2
          exact ⟨by simp [he], by simp⟩
        | none =>
          rw [h2] at h
          cases h
          exact ⟨rfl, by simp⟩
      · rename_i c t' hne1 hne2
        cases h2 : mathRest t' with
        | some v =>
          obtain ⟨u2, r2⟩ := v
          rw [h2] at h
          cases h
          have hlen : t'.length ≤ n - 1 := by simp at ht; omega
          obtain ⟨he, _⟩ := ih (n - 1) (by simp at ht; omega) t' hlen u2 r h2
          exact ⟨by simp [he], by simp⟩
        | none =>
          rw [h2] at h
          cases h
  intro t
  exact H t.length t (le_refl _)

theorem mathStep_wf : StepWF mathStep := by
  intro s a c r h
  rw [mathStep.eq_def] at h
  split at h
  · rename_i t
    split at h
    · cases h
    · cases h2 : mathRest t with
      | some v =>
        obtain ⟨u, rr⟩ := v
        rw [h2] at h
        cases h
        obtain ⟨ht, hu⟩ := mathRest_split t u r h2
        exact ⟨by simp [ht], by simp⟩
      | none => rw [h2] at h; cases h
  · cases h

theorem graphieStep_wf : StepWF graphieStep := by
  intro s a c r h
  rw [graphieStep.eq_def] at h
  split at h
  · rename_i t
    split at h
    · rename_i r' hdrop
      split at h
      · cases h
      · cases h
        refine ⟨?_, by simp⟩
        have hsplit : t = t.takeWhile (· ≠ ')') ++ ')' :: r := by
          conv_lhs => rw [← List.takeWhile_append_dropWhile (p := (· ≠ ')')) (l := t), hdrop]
        nth_rewrite 1 [hsplit]
        simp
    · cases h
  · cases h

theorem widgetStep_wf : StepWF widgetStep := by
  intro s a c r h
  rw [widgetStep.eq_def] at h
  split at h
  · rename_i t
    split at h
    · rename_i r' hdrop
      split at h
      · cases h
      · cases h
        refine ⟨?_, by simp⟩
        have hsplit : t = t.takeWhile (· ≠ ']') ++ ']' :: ']' :: r := by
          conv_lhs => rw [← List.takeWhile_append_dropWhile (p := (· ≠ ']')) (l := t), hdrop]
        nth_rewrite 1 [hsplit]
        simp
    · cases h
  · cases h

theorem textStep_wf : StepWF textStep := by
  intro s a c r h
  rw [textStep.eq_def] at h
  split at h
  · rename_i t
    split at h
    · rename_i r' hdrop
      cases h
      refine ⟨?_, by simp⟩
      have hsplit : t = t.takeWhile (· ≠ '\x7d') ++ '\x7d' :: r := by
        conv_lhs => rw [← List.takeWhile_append_dropWhile (p := (· ≠ '\x7d')) (l := t), hdrop]
      nth_rewrite 1 [hsplit]
      simp
    · cases h
  · cases h

theorem litStep_wf (pat : List Char) : StepWF (litStep pat) := by
  intro s a c r h
  rw [litStep] at h
  split at h
  · rename_i hc
    cases h
    obtain ⟨t, rfl⟩ := (isPrefixOf_iff _ _).1 hc.2
    exact ⟨by rw [List.drop_left], hc.1⟩
  · cases h

theorem collapseStep_wf : StepWF collapseStep := by
  intro s a c r h
  rw [collapseStep] at h
  split at h
  · rename_i hm
    split at h
    · rename_i hw
      cases h
      obtain ⟨t, rfl⟩ := (isPrefixOf_iff _ _).1 hm
      obtain ⟨t2r, hweq⟩ := (isPrefixOf_iff _ _).1 hw
      rw [List.drop_left] at hweq ⊢
      constructor
      · rw [hweq, List.drop_left]
        conv_lhs => rw [← List.takeWhile_append_dropWhile
          (p := fun c => c = '\t' || c = ' ') (l := t), hweq]
        simp
      · simp [mathPH]
    · cases h
  · cases h

theorem mgwStep_wf : StepWF mgwStep := by
  intro s a c r h
  rw [mgwStep] at h
  cases h1 : mathStep s with
  | some v =>
    rw [h1] at h
    obtain ⟨a1, c1, r1⟩ := v
    cases h
    exact mathStep_wf _ _ _ _ h1
  | none =>
    rw [h1] at h
    cases h2 : graphieStep s with
    | some v =>
      rw [h2] at h
      obtain ⟨a2, c2, r2⟩ := v
      cases h
      exact graphieStep_wf _ _ _ _ h2
    | none =>
      rw [h2] at h
      cases h3 : widgetStep s with
      | some v =>
        rw [h3] at h
        obtain ⟨a3, c3, r3⟩ := v
        cases h
        exact widgetStep_wf _ _ _ _ h3
      | none => rw [h3] at h; cases h

theorem kindStep_wf : ∀ k, StepWF (kindStep k)
  | .math => mathStep_wf
  | .graphie => graphieStep_wf
  | .widget => widgetStep_wf

/-! ## jsIndexOf and mapOutputs -/

theorem jsIndexOf_spec : ∀ (l : List (List Char)) x i, jsIndexOf x l = some i →
    l.get? i = some x ∧ ∀ k, k < i → l.get? k ≠ some x := by
  intro l
  induction l with
  | nil => intro x i h; cases h
  | cons y ys ih =>
    intro x i h
    rw [jsIndexOf] at h
    split at h
    · rename_i hy
      cases h
      exact ⟨by simp [hy], fun k hk => by omega⟩
    · rename_i hy
      cases h2 : jsIndexOf x ys with
      | some j =>
        rw [h2] at h
        simp only [Option.map_some'] at h
        cases h
        obtain ⟨hget, hmin⟩ := ih x j h2
        refine ⟨by simpa using hget, ?_⟩
        intro k hk
        cases k with
        | zero =>
          intro he
          simp only [List.get?_cons_zero, Option.some.injEq] at he
          exact hy he
        | succ k' =>
          simp only [List.get?_cons_succ]
          exact hmin k' (by omega)
      | none => rw [h2] at h; cases h

theorem jsIndexOf_lt : jsIndexOf x l = some i → i < l.length := by
  intro h
  have := (jsIndexOf_spec l x i h).1
  exact (List.get?_eq_some.1 this).1

theorem mapOutputs_ok_length :
    ∀ os m, mapOutputs inputs k lang os = .ok m → m.length = os.length := by
  intro os
  induction os with
  | nil => intro m h; cases h; rfl
  | cons o os ih =>
    intro m h
    rw [mapOutputs] at h
    split at h
    · rename_i i hi
      cases h2 : mapOutputs inputs k lang os with
      | ok m2 => rw [h2] at h; cases h; simpa using ih m2 h2
      | error e => rw [h2] at h; cases h
    · cases h

theorem mapOutputs_ok_get :
    ∀ os m, mapOutputs inputs k lang os = .ok m → ∀ i o, os.get? i = some o →
      m.get? i = jsIndexOf (procOutput k lang o) inputs := by
  intro os
  induction os with
  | nil => intro m h i o ho; cases ho
  | cons o0 os ih =>
    intro m h i o ho
    rw [mapOutputs] at h
    split at h
    · rename_i j hj
      cases h2 : mapOutputs inputs k lang os with
      | ok m2 =>
        rw [h2] at h
        cases h
        cases i with
        | zero =>
          simp only [List.get?_cons_zero] at ho
          cases ho
          simp [hj]
        | succ i' =>
          simp only [List.get?_cons_succ] at ho ⊢
          exact ih m2 h2 i' o ho
      | error e => rw [h2] at h; cases h
    · cases h

theorem procInputs_length :
    (procInputs k dict E).length = (matchesOf k E).length := by
  rw [procInputs]
  split <;> simp_all

/-! ## Claims C6, C10, C3, C5 -/

/-- Claim C6: for every (English, translated) pair and kind, when the
mapping construction succeeds, each entry of the resulting mapping equals
the smallest (left-most) 0-based index of an English occurrence whose
processed form (for math: dictionary substitution on the English side,
per-language rewriting on the translated side) equals the processed
translated occurrence; in particular, all translated occurrences that are
duplicates of each other map to the same first matching English index. -/
theorem claimC6 (E T : List Char) (lang : Lang) (k : Kind)
    (dict : List (List Char × List Char)) (m : List Nat)
    (h : getMapping E T lang k dict = .ok m) :
    (∀ i o, (matchesOf k T).get? i = some o →
      ∃ j, m.get? i = some j ∧
        (procInputs k dict E).get? j = some (procOutput k lang o) ∧
        ∀ j' < j, (procInputs k dict E).get? j' ≠ some (procOutput k lang o)) ∧
    (∀ i i' o o', (matchesOf k T).get? i = some o →
      (matchesOf k T).get? i' = some o' →
      procOutput k lang o = procOutput k lang o' →
      m.get? i = m.get? i') := by
  rw [getMapping] at h
  constructor
  · intro i o ho
    have hg := mapOutputs_ok_get _ _ h i o ho
    cases hj : jsIndexOf (procOutput k lang o) (procInputs k dict E) with
    | none =>
      rw [hj] at hg
      have hlen := mapOutputs_ok_length _ _ h
      have h1 := List.get?_eq_none.1 hg
      obtain ⟨h2, _⟩ := List.get?_eq_some.1 ho
      omega
    | some j =>
      rw [hj] at hg
      obtain ⟨hget, hmin⟩ := jsIndexOf_spec _ _ _ hj
      exact ⟨j, hg, hget, hmin⟩
  · intro i i' o o' ho ho' heq
    rw [mapOutputs_ok_get _ _ h i o ho, mapOutputs_ok_get _ _ h i' o' ho', heq]

/-- Concrete application of `claimC6`: English `"$2/4$ and $3/6$"`,
translated `"$3/6$ and $2/4$"`, whose mapping is `[1, 0]`. -/
theorem claimC6_witness :
    ∃ j, ([1, 0] : List Nat).get? 0 = some j ∧
      (procInputs .math [] "$2/4$ and $3/6$".data).get? j =
        some (procOutput .math none "$3/6$".data) ∧
      ∀ j' < j, (procInputs .math [] "$2/4$ and $3/6$".data).get? j' ≠
        some (procOutput .math none "$3/6$".data) :=
  (claimC6 "$2/4$ and $3/6$".data "$3/6$ and $2/4$".data none .math [] [1, 0]
    (by decide)).1 0 "$3/6$".data (by decide)

/-- Claim C10: every mapping returned by a successful `getMapping` call has
length equal to the number of occurrences of that kind in the translated
string, and all its entries are in-bounds indices into the English
occurrence list. -/
theorem claimC10 (E T : List Char) (lang : Lang) (k : Kind)
    (dict : List (List Char × List Char)) (m : List Nat)
    (h : getMapping E T lang k dict = .ok m) :
    m.length = (matchesOf k T).length ∧
    ∀ j ∈ m, j < (matchesOf k E).length := by
  rw [getMapping] at h
  refine ⟨mapOutputs_ok_length _ _ h, ?_⟩
  intro j hj
  obtain ⟨i, hi⟩ := List.get?_of_mem hj
  have hlen := mapOutputs_ok_length _ _ h
  obtain ⟨hilt, _⟩ := List.get?_eq_some.1 hi
  have hio : i < (matchesOf k T).length := by omega
  have ho := List.get?_eq_get hio
  have hg := mapOutputs_ok_get _ _ h i _ ho
  rw [hi] at hg
  have := jsIndexOf_lt hg.symm
  rwa [procInputs_length] at this

/-- Concrete application of `claimC10`. -/
theorem claimC10_witness :
    ([1, 0] : List Nat).length = (matchesOf .math "$3/6$ and $2/4$".data).length ∧
    ∀ j ∈ ([1, 0] : List Nat), j < (matchesOf .math "$2/4$ and $3/6$".data).length :=
  claimC10 "$2/4$ and $3/6$".data "$3/6$ and $2/4$".data none .math [] [1, 0]
    (by decide)

/-- The `popGo` loop returns a value whenever there are at least as many
template lines as English lines. -/
theorem popGo_isSome (t : Template) (maths graphies widgets : List (List Char)) :
    ∀ es tls mi gi wi, es.length ≤ tls.length →
      (popGo t maths graphies widgets es tls mi gi wi).isSome := by
  intro es
  induction es with
  | nil => intro tls mi gi wi _; rfl
  | cons e es ih =>
    intro tls mi gi wi h
    cases tls with
    | nil => simp at h
    | cons tl tls =>
      rw [popGo]
      simp only [Option.isSome_map']
      exact ih tls _ _ _ (by simp at h; omega)

/-- Claim C5: mismatch errors are detected only at template construction
time; for every successfully built template and every English query string
whose paragraph count equals the template's line count, `populateTemplate`
returns a string (no mismatch error and no crash), even when the query's
occurrence counts differ from those of the pair the template was built
from. -/
theorem claimC5 (E1 T1 : List Char) (lang1 : Lang) (t : Template)
    (h : createTemplate E1 T1 lang1 = .ok t) (E2 : List Char) (lang2 : Lang)
    (hlen : (splitLB E2).length = t.lines.length) :
    (populateTemplate t E2 lang2).isSome := by
  rw [populateTemplate]
  simp only [Option.isSome_map']
  exact popGo_isSome t _ _ _ (splitLB E2) t.lines 0 0 0 (le_of_eq hlen)

/-- Concrete application of `claimC5`: a template built from
`("$1$", "$1$")` (one math occurrence) populated with `"$a$ $b$"` (two math
occurrences) still returns a string. -/
theorem claimC5_witness :
    (populateTemplate ⟨["__MATH__".data], [0], [], [], []⟩ "$a$ $b$".data
      none).isSome :=
  claimC5 "$1$".data "$1$".data none ⟨["__MATH__".data], [0], [], [], []⟩
    (by decide) "$a$ $b$".data none (by decide)

/-! ## Claim C9: idempotence of the per-language math rewriter -/

theorem occursIn_split : ∀ (u v p : List Char), occursIn p (u ++ v) = false →
    p.isPrefixOf v = false := by
  intro u
  induction u with
  | nil =>
    intro v p h
    rw [List.nil_append] at h
    cases v with
    | nil =>
      rw [occursIn] at h
      cases p with
      | nil => simp at h
      | cons c p' => rfl
    | cons c t =>
      rw [occursIn] at h
      simp only [Bool.or_eq_false_iff] at h
      exact h.1
  | cons c u' ih =>
    intro v p h
    rw [List.cons_append, occursIn] at h
    simp only [Bool.or_eq_false_iff] at h
    exact ih v p h.2

theorem litStep_none_of_not_occurs {p s : List Char} (h : occursIn p s = false) :
    ∀ u v, s = u ++ v → litStep p v = none := by
  intro u v hsplit
  rw [litStep]
  have hpre : p.isPrefixOf v = false := occursIn_split u v p (hsplit ▸ h)
  rw [if_neg]
  intro hc
  rw [hpre] at hc
  exact absurd hc.2 (by simp)

theorem replaceAllK_of_not_occurs {p r s : List Char} (h : occursIn p s = false) :
    replaceAllK (litStep p) r s = s := by
  rw [replaceAllK, tokenize_all_chr s (litStep_none_of_not_occurs h),
    toksSubstConst_map_chr]

/-- No character of `\operatorname{sen}` other than the first is a
backslash, and the replacement does not contain `\sin`, so prepending it
does not add occurrences. -/
theorem occursIn_sin_senRepl (x : List Char) :
    occursIn sinPat (senRepl ++ x) = occursIn sinPat x := rfl

/-- If a backslash-free pattern is a prefix of a rewritten string, it was a
prefix of the original. -/
theorem isPrefixOf_replaceSin : ∀ (q t : List Char), (∀ c ∈ q, c ≠ '\\') →
    q.isPrefixOf (replaceAllK (litStep sinPat) senRepl t) = true →
    q.isPrefixOf t = true := by
  intro q
  induction q with
  | nil => intro t _ _; cases t <;> rfl
  | cons c q' ih =>
    intro t hq hpre
    cases t with
    | nil =>
      rw [replaceAllK, tokenize_nil] at hpre
      cases hpre
    | cons d t2 =>
      cases hstep : litStep sinPat (d :: t2) with
      | some v =>
        obtain ⟨a, cs, r⟩ := v
        rw [replaceAllK, tokenize_tok (litStep_wf sinPat) hstep] at hpre
        have hcs : cs = sinPat := by
          rw [litStep] at hstep
          split at hstep
          · cases hstep; rfl
          · cases hstep
        subst hcs
        simp only [toksSubstConst] at hpre
        have : c = '\\' := by
          have h18 : senRepl ++ toksSubstConst senRepl (tokenize (litStep sinPat) r) =
              '\\' :: ("operatorname\x7bsen\x7d".data ++
                toksSubstConst senRepl (tokenize (litStep sinPat) r)) := rfl
          rw [h18, List.isPrefixOf] at hpre
          simp only [Bool.and_eq_true, beq_iff_eq] at hpre
          exact hpre.1
        exact absurd this (hq c (by simp))
      | none =>
        rw [replaceAllK, tokenize_chr hstep] at hpre
        simp only [toksSubstConst] at hpre
        rw [List.isPrefixOf] at hpre ⊢
        simp only [Bool.and_eq_true] at hpre ⊢
        exact ⟨hpre.1, ih t2 (fun e he => hq e (by simp [he])) hpre.2⟩

theorem replaceSin_no_sin : ∀ s, occursIn sinPat
    (replaceAllK (litStep sinPat) senRepl s) = false := by
  have H : ∀ n (s : List Char), s.length ≤ n →
      occursIn sinPat (replaceAllK (litStep sinPat) senRepl s) = false := by
    intro n
    induction n using Nat.strong_induction_on with
    | _ n ih =>
      intro s hs
      cases s with
      | nil => rfl
      | cons c t =>
        cases n with
        | zero => simp at hs
        | succ n' =>
          cases hstep : litStep sinPat (c :: t) with
          | some v =>
            obtain ⟨a, cs, r⟩ := v
            have hr := stepwf_rest_lt (litStep_wf sinPat) hstep
            rw [replaceAllK, tokenize_tok (litStep_wf sinPat) hstep]
            simp only [toksSubstConst]
            rw [occursIn_sin_senRepl]
            have := ih n' (by omega) r (by simp at hs hr; omega)
            rw [replaceAllK] at this
            exact this
          | none =>
            rw [replaceAllK, tokenize_chr hstep]
            simp only [toksSubstConst]
            rw [occursIn]
            simp only [Bool.or_eq_false_iff]
            constructor
            · cases hpre : List.isPrefixOf sinPat
                (c :: toksSubstConst senRepl (tokenize (litStep sinPat) t)) with
              | false => rfl
              | true =>
                exfalso
                have hc : '\\' = c ∧ List.isPrefixOf "sin".data
                    (toksSubstConst senRepl (tokenize (litStep sinPat) t)) = true := by
                  rw [show sinPat = '\\' :: "sin".data from rfl, List.isPrefixOf] at hpre
                  simp only [Bool.and_eq_true, beq_iff_eq] at hpre
                  exact hpre
                have hsin : List.isPrefixOf "sin".data t = true :=
                  isPrefixOf_replaceSin "sin".data t (by decide) hc.2
                rw [litStep] at hstep
                rw [if_pos] at hstep
                · cases hstep
                · refine ⟨by decide, ?_⟩
                  rw [show sinPat = '\\' :: "sin".data from rfl, List.isPrefixOf]
                  simp only [Bool.and_eq_true, beq_iff_eq]
                  exact ⟨hc.1, hsin⟩
            · have := ih n' (by omega) t (by simp at hs; omega)
              rw [replaceAllK] at this
              exact this
  intro s
  exact H s.length s (le_refl _)

theorem translateMath_idem (m : List Char) (lang : Lang) :
    translateMath (translateMath m lang) lang = translateMath m lang := by
  by_cases hpt : lang = some "pt"
  · subst hpt
    rw [translateMath, if_pos rfl, translateMath, if_pos rfl]
    exact replaceAllK_of_not_occurs (replaceSin_no_sin m)
  · rw [translateMath, if_neg hpt, translateMath, if_neg hpt]

/-- Claim C9: the per-language math rewriter is idempotent: applying it
twice gives the same result as applying it once, for every math string and
language code. -/
theorem claimC9 (m : List Char) (lang : Lang) :
    translateMath (translateMath m lang) lang = translateMath m lang :=
  translateMath_idem m lang

/-! ## Claims C7, C1, C8 -/

theorem suggest_singleton (a : Assistant) (it : Item) :
    suggest a [it] = (suggestOne a it).map (fun r => [r]) := by
  rw [suggest]
  cases h : suggestOne a it with
  | none => simp [List.mapM, List.mapM.loop, h]
  | some r => simp [List.mapM, List.mapM.loop, h]

/-- Claim C7: for a queried item whose group-key shape is exactly the bare
`__MATH__` placeholder and whose English string contains no `\text` marker,
`suggest` returns the English string rewritten by the per-language math
rewriter; for a bare `__GRAPHIE__` or bare `__WIDGET__` shape it returns
the English string unchanged. -/
theorem claimC7 (a : Assistant) (it : Item) :
    ((keyObj it.english).1 = mathPH → occursIn "\\text".data it.english = false →
      suggest a [it] = some [(it, some (translateMath it.english a.lang))]) ∧
    ((keyObj it.english).1 = graphiePH ∨ (keyObj it.english).1 = widgetPH →
      suggest a [it] = some [(it, some it.english)]) := by
  constructor
  · intro hshape htext
    have h1 : suggestOne a it = some (it, some (translateMath it.english a.lang)) := by
      rw [suggestOne, if_pos hshape, if_neg]
      rw [htext]
      simp
    rw [suggest_singleton, h1]
    rfl
  · intro hsh
    have hne : ¬ (keyObj it.english).1 = mathPH := by
      rcases hsh with h | h <;> rw [h] <;> decide
    have h1 : suggestOne a it = some (it, some it.english) := by
      rw [suggestOne, if_neg hne, if_pos hsh]
    rw [suggest_singleton, h1]
    rfl

/-- Concrete application of `claimC7`: English `"$\sin(x)$"` with language
`"pt"` yields the suggestion `"$\operatorname{sen}(x)$"`. -/
theorem claimC7_witness :
    suggest (mkAssistant [] (some "pt")) [⟨"$\\sin(x)$".data, none⟩] =
      some [(⟨"$\\sin(x)$".data, none⟩,
        some "$\\operatorname\x7bsen\x7d(x)$".data)] := by
  have h := (claimC7 (mkAssistant [] (some "pt")) ⟨"$\\sin(x)$".data, none⟩).1
    (by decide) (by decide)
  exact h.trans (by decide)

/-- Claim C1 (code bug): the source constructor runs
`this.suggestionGroups = this.getSuggestionGroups(allItems)` before
`this.lang = lang`, so every template is built with `this.lang = undefined`
instead of the language code supplied to the constructor.  With language
"pt" and the single item (`"$\sin(x)$"` translated as `"$\sin(x)$"`), the
engine stores the successful template built with `undefined`, while
`createTemplate` with the supplied language "pt" returns the math-mismatch
failure. -/
theorem claimC1 :
    (mkAssistant [⟨"$\\sin(x)$".data, some "$\\sin(x)$".data⟩]
        (some "pt")).suggestionGroups =
      [(stringToGroupKey "$\\sin(x)$".data,
        ⟨[⟨"$\\sin(x)$".data, some "$\\sin(x)$".data⟩],
          some (.ok ⟨[mathPH], [0], [], [], []⟩)⟩)] ∧
    createTemplate "$\\sin(x)$".data "$\\sin(x)$".data (some "pt") =
      .error .mathMismatch := by
  refine ⟨by decide, by decide⟩

theorem isPrefixOf_append_self (p x : List Char) : p.isPrefixOf (p ++ x) = true :=
  (isPrefixOf_iff p (p ++ x)).2 ⟨x, rfl⟩

theorem takeWhile_all_append (p : Char → Bool) :
    ∀ (sep y : List Char), sep.all p = true → p y.headI = false → y ≠ [] →
      (sep ++ y).takeWhile p = sep ∧ (sep ++ y).dropWhile p = y := by
  intro sep
  induction sep with
  | nil =>
    intro y _ hy hye
    cases y with
    | nil => exact absurd rfl hye
    | cons c cs =>
      simp only [List.headI] at hy
      simp only [List.nil_append, List.takeWhile, List.dropWhile, hy]
      constructor <;> trivial
  | cons s sep' ih =>
    intro y hall hy hye
    simp only [List.all_cons, Bool.and_eq_true] at hall
    simp only [List.cons_append, List.takeWhile, List.dropWhile, hall.1]
    obtain ⟨h1, h2⟩ := ih y hall.2 hy hye
    refine ⟨?_, ?_⟩
    · show s :: List.takeWhile p (sep' ++ y) = s :: sep'
      rw [h1]
    · show List.dropWhile p (sep' ++ y) = y
      rw [h2]

theorem collapseStep_at (sep rest : List Char)
    (hsep : sep.all (fun c => c = '\t' || c = ' ') = true) :
    collapseStep (mathPH ++ (sep ++ (widgetPH ++ rest))) =
      some ((), mathPH ++ sep ++ widgetPH, rest) := by
  obtain ⟨htake, hdrop⟩ := takeWhile_all_append (fun c => c = '\t' || c = ' ')
    sep (widgetPH ++ rest) hsep
    (by show (fun c => decide (c = '\t') || decide (c = ' ')) '_' = false; decide)
    (by simp [widgetPH])
  rw [collapseStep, if_pos (isPrefixOf_append_self _ _), List.drop_left,
    htake, hdrop, if_pos (isPrefixOf_append_self _ _), List.drop_left]

/-- Claim C8 (amended): in the group-key skeleton the collapse rewrites a
math placeholder, a POSSIBLY EMPTY run of tabs and spaces, and a widget
placeholder into `__MATH__ __WIDGET__` — so it applies (inserting a space)
even when nothing separates the two placeholders, and a separator made of
other whitespace, such as a line feed, is not collapsed. -/
theorem claimC8 (sep rest : List Char) :
    (sep.all (fun c => c = '\t' || c = ' ') = true →
      collapseMW (mathPH ++ (sep ++ (widgetPH ++ rest))) =
        "__MATH__ __WIDGET__".data ++ collapseMW rest) ∧
    collapseMW (mathPH ++ '\n' :: widgetPH) = mathPH ++ '\n' :: widgetPH := by
  constructor
  · intro hsep
    rw [collapseMW, tokenize_tok collapseStep_wf (collapseStep_at sep rest hsep)]
    rw [toksSubstConst]
    rfl
  · decide

/-- Counterexample to claim C8 as stated: with no whitespace at all between
the two placeholders (English `"$x$[[☃ w]]"`), the skeleton still collapses
the pair, inserting a space; and a line-feed separator, although
whitespace, is not collapsed. -/
theorem claimC8_cex :
    keySkeleton "$x$[[\u2603 w]]".data = "__MATH__ __WIDGET__".data ∧
    "__MATH__ __WIDGET__".data ≠ "__MATH____WIDGET__".data ∧
    keySkeleton "$x$\n[[\u2603 w]]".data = "__MATH__\n__WIDGET__".data := by
  refine ⟨by decide, by decide, by decide⟩

/-- Concrete application of `claimC8` with a single-space separator. -/
theorem claimC8_witness :
    collapseMW (mathPH ++ ([' '] ++ (widgetPH ++ []))) =
      "__MATH__ __WIDGET__".data ++ collapseMW [] :=
  (claimC8 [' '] []).1 (by decide)

/-! ## Claim C4: group keys collide exactly on equal shapes -/

theorem char_ofNat_toNat (c : Char) : Char.ofNat c.toNat = c := by
  apply Char.eq_of_val_eq
  rw [Char.ofNat]
  split
  · rfl
  · rename_i hv
    exact absurd c.valid hv

theorem hexVal_hexDigit (n : Nat) (h : n < 16) : hexVal (hexDigit n) = n := by
  interval_cases n <;> decide

theorem unescChar_escChar (c : Char) (x : List Char) :
    unescChar (escChar c ++ x) = some (c, x) := by
  by_cases h1 : c = '"'
  · subst h1; rfl
  by_cases h2 : c = '\\'
  · subst h2; rfl
  by_cases h3 : c = '\x08'
  · subst h3; rfl
  by_cases h4 : c = '\t'
  · subst h4; rfl
  by_cases h5 : c = '\n'
  · subst h5; rfl
  by_cases h6 : c = '\x0c'
  · subst h6; rfl
  by_cases h7 : c = '\r'
  · subst h7; rfl
  by_cases h8 : c.toNat < 0x20
  · rw [escChar, if_neg h1, if_neg h2, if_neg h3, if_neg h4, if_neg h5, if_neg h6,
      if_neg h7, if_pos h8]
    show unescChar ('\\' :: 'u' :: '0' :: '0' :: hexDigit (c.toNat / 16) ::
      hexDigit (c.toNat % 16) :: x) = some (c, x)
    rw [unescChar]
    have hd1 : c.toNat / 16 < 16 := by omega
    have hd2 : c.toNat % 16 < 16 := Nat.mod_lt _ (by omega)
    rw [hexVal_hexDigit _ hd1, hexVal_hexDigit _ hd2]
    have hn : 16 * (c.toNat / 16) + c.toNat % 16 = c.toNat := by omega
    rw [hn, char_ofNat_toNat]
  · rw [escChar, if_neg h1, if_neg h2, if_neg h3, if_neg h4, if_neg h5, if_neg h6,
      if_neg h7, if_neg h8]
    show unescChar (c :: x) = some (c, x)
    rw [unescChar.eq_def]
    split
    · rename_i heq
      injection heq with hc _
      exact absurd hc h2
    · rename_i heq
      injection heq with hc _
      exact absurd hc h2
    · rename_i heq
      injection heq with hc _
      exact absurd hc h2
    · rename_i heq
      injection heq with hc _
      exact absurd hc h2
    · rename_i heq
      injection heq with hc _
      exact absurd hc h2
    · rename_i heq
      injection heq with hc _
      exact absurd hc h2
    · rename_i heq
      injection heq with hc _
      exact absurd hc h2
    · rename_i heq
      injection heq with hc _
      exact absurd hc h2
    · rename_i c' r heq
      injection heq with hc hx
      rw [hc, hx]
    · rename_i heq
      cases heq

theorem escChar_facts (c : Char) : (escChar c).headI ≠ '"' ∧ escChar c ≠ [] := by
  rw [escChar]
  split_ifs with h1 h2 h3 h4 h5 h6 h7 h8
  all_goals first
    | exact ⟨(by decide : ('\\' : Char) ≠ '"'), by simp⟩
    | exact ⟨h1, by simp⟩

theorem escRun_body_inj : ∀ a b x y,
    catMap escChar a ++ '"' :: x = catMap escChar b ++ '"' :: y →
    a = b ∧ x = y := by
  intro a
  induction a with
  | nil =>
    intro b x y h
    cases b with
    | nil =>
      simp only [catMap, List.nil_append] at h
      injection h with _ ht
      exact ⟨rfl, ht⟩
    | cons d b' =>
      exfalso
      simp only [catMap, List.nil_append, List.append_assoc] at h
      obtain ⟨hh, hne⟩ := escChar_facts d
      cases hesc : escChar d with
      | nil => exact hne hesc
      | cons e es =>
        rw [hesc] at h hh
        injection h with h1 _
        exact hh (by rw [← h1]; rfl)
  | cons c a' ih =>
    intro b x y h
    cases b with
    | nil =>
      exfalso
      simp only [catMap, List.nil_append, List.append_assoc] at h
      obtain ⟨hh, hne⟩ := escChar_facts c
      cases hesc : escChar c with
      | nil => exact hne hesc
      | cons e es =>
        rw [hesc] at h hh
        injection h with h1 _
        exact hh (by rw [h1]; rfl)
    | cons d b' =>
      have heq : escChar c ++ (catMap escChar a' ++ '"' :: x) =
          escChar d ++ (catMap escChar b' ++ '"' :: y) := by
        simpa [catMap, List.append_assoc] using h
      have e1 := unescChar_escChar c (catMap escChar a' ++ '"' :: x)
      have e2 := unescChar_escChar d (catMap escChar b' ++ '"' :: y)
      rw [heq] at e1
      rw [e2] at e1
      injection e1 with hpair
      rw [Prod.mk.injEq] at hpair
      obtain ⟨hcd, hAB⟩ := hpair
      obtain ⟨hab, hxy⟩ := ih b' x y hAB.symm
      subst hcd
      exact ⟨by rw [hab], hxy⟩

theorem serStr_inj (v w x y : List Char) (h : serStr v ++ x = serStr w ++ y) :
    v = w ∧ x = y := by
  simp only [serStr, List.cons_append, List.append_assoc, List.singleton_append] at h
  injection h with _ h2
  exact escRun_body_inj v w x y h2

theorem serStr_head_facts (v : List Char) :
    (serStr v).headI ≠ ']' ∧ (serStr v).headI ≠ ',' ∧ serStr v ≠ [] :=
  ⟨(by decide : ('"' : Char) ≠ ']'), (by decide : ('"' : Char) ≠ ','), by simp [serStr]⟩

theorem serList_inj (ser : α → List Char)
    (hser : ∀ v w x y, ser v ++ x = ser w ++ y → v = w ∧ x = y)
    (hhead : ∀ v, (ser v).headI ≠ ']' ∧ (ser v).headI ≠ ',' ∧ ser v ≠ []) :
    ∀ l1 l2 x y, serList ser l1 ++ ']' :: x = serList ser l2 ++ ']' :: y →
      l1 = l2 ∧ x = y := by
  intro l1
  induction l1 with
  | nil =>
    intro l2 x y h
    cases l2 with
    | nil =>
      simp only [serList, List.nil_append] at h
      injection h with _ ht
      exact ⟨rfl, ht⟩
    | cons b bs =>
      exfalso
      obtain ⟨hh1, _, hne⟩ := hhead b
      have hform : ∃ R, serList ser (b :: bs) ++ ']' :: y = ser b ++ R := by
        cases bs with
        | nil => exact ⟨']' :: y, rfl⟩
        | cons c cs => exact ⟨',' :: (serList ser (c :: cs) ++ ']' :: y), by
            simp [serList, List.append_assoc]⟩
      obtain ⟨R, hRe⟩ := hform
      rw [hRe] at h
      simp only [serList, List.nil_append] at h
      cases hesc : ser b with
      | nil => exact hne hesc
      | cons e es =>
        rw [hesc] at h hh1
        injection h with h1 _
        exact hh1 (by rw [← h1]; rfl)
  | cons a as ih =>
    intro l2 x y h
    cases l2 with
    | nil =>
      exfalso
      obtain ⟨hh1, _, hne⟩ := hhead a
      have hform : ∃ R, serList ser (a :: as) ++ ']' :: x = ser a ++ R := by
        cases as with
        | nil => exact ⟨']' :: x, rfl⟩
        | cons c cs => exact ⟨',' :: (serList ser (c :: cs) ++ ']' :: x), by
            simp [serList, List.append_assoc]⟩
      obtain ⟨R, hRe⟩ := hform
      rw [hRe] at h
      simp only [serList, List.nil_append] at h
      cases hesc : ser a with
      | nil => exact hne hesc
      | cons e es =>
        rw [hesc] at h hh1
        injection h with h1 _
        exact hh1 (by rw [h1]; rfl)
    | cons b bs =>
      cases as with
      | nil =>
        cases bs with
        | nil =>
          simp only [serList] at h
          obtain ⟨hab, ht⟩ := hser a b (']' :: x) (']' :: y) h
          injection ht with _ hxy
          exact ⟨by rw [hab], hxy⟩
        | cons c cs =>
          exfalso
          simp only [serList, List.append_assoc, List.cons_append] at h
          obtain ⟨_, ht⟩ := hser a b _ _ h
          injection ht with hcomma _
          cases hcomma
      | cons c cs =>
        cases bs with
        | nil =>
          exfalso
          simp only [serList, List.append_assoc, List.cons_append] at h
          obtain ⟨_, ht⟩ := hser a b _ _ h
          injection ht with hcomma _
          cases hcomma
        | cons d ds =>
          simp only [serList, List.append_assoc, List.cons_append] at h
          obtain ⟨hab, ht⟩ := hser a b _ _ h
          injection ht with _ ht2
          obtain ⟨has, hxy⟩ := ih (d :: ds) x y ht2
          exact ⟨by rw [hab, has], hxy⟩

theorem serArr_inj (ser : α → List Char)
    (hser : ∀ v w x y, ser v ++ x = ser w ++ y → v = w ∧ x = y)
    (hhead : ∀ v, (ser v).headI ≠ ']' ∧ (ser v).headI ≠ ',' ∧ ser v ≠ []) :
    ∀ v w x y, serArr ser v ++ x = serArr ser w ++ y → v = w ∧ x = y := by
  intro v w x y h
  simp only [serArr, List.cons_append, List.append_assoc, List.singleton_append] at h
  injection h with _ h2
  exact serList_inj ser hser hhead v w x y h2

theorem serArr_head_facts (ser : α → List Char) (v : List α) :
    (serArr ser v).headI ≠ ']' ∧ (serArr ser v).headI ≠ ',' ∧ serArr ser v ≠ [] :=
  ⟨(by decide : ('[' : Char) ≠ ']'), (by decide : ('[' : Char) ≠ ','), by simp [serArr]⟩

theorem serKey_inj (p q : List Char × List (List (List Char)))
    (h : serKey p = serKey q) : p = q := by
  obtain ⟨s1, t1⟩ := p
  obtain ⟨s2, t2⟩ := q
  simp only [serKey, List.append_assoc] at h
  have h1 : serStr s1 ++ (",\"texts\":".data ++ (serArr (serArr serStr) t1 ++ ['\x7d'])) =
      serStr s2 ++ (",\"texts\":".data ++ (serArr (serArr serStr) t2 ++ ['\x7d'])) :=
    List.append_cancel_left h
  obtain ⟨hs, h2⟩ := serStr_inj _ _ _ _ h1
  have h3 : serArr (serArr serStr) t1 ++ ['\x7d'] = serArr (serArr serStr) t2 ++ ['\x7d'] :=
    List.append_cancel_left h2
  obtain ⟨ht, _⟩ := serArr_inj (serArr serStr)
    (serArr_inj serStr serStr_inj serStr_head_facts)
    (fun v => serArr_head_facts serStr v) t1 t2 _ _ h3
  rw [hs, ht]

/-- Claim C4: group-key construction is a pure function (definitionally),
and it is injective on shapes: two strings receive the same serialized key
if and only if they have the same key object (trimmed skeleton plus the
ordered sequence of sorted fragment lists); two different shapes never
serialize to the same key. -/
theorem claimC4 (s1 s2 : List Char) :
    stringToGroupKey s1 = stringToGroupKey s2 ↔ keyObj s1 = keyObj s2 := by
  constructor
  · intro h
    exact serKey_inj _ _ h
  · intro h
    rw [stringToGroupKey, stringToGroupKey, h]

/-! ## Claim C2: preliminaries on lists, prefixes and substrings -/

theorem getLast_cons_of_ne_nil {c : Char} {l : List Char} (h : l ≠ []) :
    (c :: l).getLast? = l.getLast? := by
  cases l with
  | nil => exact absurd rfl h
  | cons d t => rfl

theorem getLast_concat_eq (u : List Char) (c : Char) :
    (u ++ [c]).getLast? = some c := by
  induction u with
  | nil => rfl
  | cons d t ih => rw [List.cons_append, getLast_cons_of_ne_nil (by simp), ih]

theorem isPrefixOf_append_long : ∀ (q a t : List Char), q.length ≤ a.length →
    q.isPrefixOf (a ++ t) = q.isPrefixOf a := by
  intro q
  induction q with
  | nil => intro a t _; cases a <;> simp [List.isPrefixOf]
  | cons c q2 ih =>
    intro a t hlen
    cases a with
    | nil => simp at hlen
    | cons d a2 =>
      rw [List.cons_append]
      show (c == d && q2.isPrefixOf (a2 ++ t)) = (c == d && q2.isPrefixOf a2)
      rw [ih a2 t (by simpa using hlen)]

theorem isPrefixOf_append_short : ∀ (q a t : List Char), a.length < q.length →
    q.isPrefixOf (a ++ t) = (a.isPrefixOf q && (q.drop a.length).isPrefixOf t) := by
  intro q
  induction q with
  | nil => intro a t h; simp at h
  | cons c q2 ih =>
    intro a t hlen
    cases a with
    | nil => simp [List.isPrefixOf]
    | cons d a2 =>
      rw [List.cons_append]
      show (c == d && q2.isPrefixOf (a2 ++ t)) = _
      rw [ih a2 t (by simpa using hlen)]
      show _ = ((d == c && a2.isPrefixOf q2) && _)
      simp only [List.length_cons, List.drop_succ_cons]
      cases hcd : (c == d) with
      | false =>
        have hdc : (d == c) = false := by
          simp only [beq_eq_false_iff_ne] at hcd ⊢
          exact fun h => hcd h.symm
        rw [hdc]
        rfl
      | true =>
        have hdc : (d == c) = true := by
          simp only [beq_iff_eq] at hcd ⊢
          exact hcd.symm
        rw [hdc]
        simp [Bool.and_assoc]

theorem occursIn_nil_pat : ∀ s : List Char, occursIn [] s = true := by
  intro s
  cases s with
  | nil => rfl
  | cons c t => rw [occursIn]; simp [List.isPrefixOf]

theorem occursIn_of_mid : ∀ (u v p : List Char), p.isPrefixOf v = true →
    occursIn p (u ++ v) = true := by
  intro u
  induction u with
  | nil =>
    intro v p h
    rw [List.nil_append]
    cases v with
    | nil =>
      have hp : p = [] := by
        cases p with
        | nil => rfl
        | cons c q => cases h
      subst hp
      rfl
    | cons c t => rw [occursIn, h]; rfl
  | cons c u2 ih =>
    intro v p h
    rw [List.cons_append, occursIn, ih v p h]
    simp

theorem occursIn_true_split : ∀ (s p : List Char), occursIn p s = true →
    ∃ u v, s = u ++ v ∧ p.isPrefixOf v = true := by
  intro s
  induction s with
  | nil =>
    intro p h
    rw [occursIn] at h
    have hp : p = [] := by
      cases p with
      | nil => rfl
      | cons c q => simp at h
    exact ⟨[], [], rfl, by rw [hp]; rfl⟩
  | cons d t ih =>
    intro p h
    rw [occursIn] at h
    cases hpre : p.isPrefixOf (d :: t) with
    | true => exact ⟨[], d :: t, rfl, hpre⟩
    | false =>
      rw [hpre] at h
      simp only [Bool.false_or] at h
      obtain ⟨u, v, he, hp⟩ := ih p h
      exact ⟨d :: u, v, by rw [he]; rfl, hp⟩

theorem occursIn_sub_false : ∀ (u m w p : List Char),
    occursIn p (u ++ m ++ w) = false → occursIn p m = false := by
  intro u m w p h
  cases hm : occursIn p m with
  | false => rfl
  | true =>
    exfalso
    obtain ⟨u2, v2, he, hp⟩ := occursIn_true_split m p hm
    have hv2 : p.isPrefixOf (v2 ++ w) = true := by
      rw [isPrefixOf_iff] at hp ⊢
      obtain ⟨t2, ht2⟩ := hp
      exact ⟨t2 ++ w, by rw [ht2, List.append_assoc]⟩
    have : occursIn p (u ++ m ++ w) = true := by
      rw [he, List.append_assoc, List.append_assoc,
        ← List.append_assoc u u2 (v2 ++ w)]
      exact occursIn_of_mid (u ++ u2) (v2 ++ w) p hv2
    rw [h] at this
    cases this

theorem occursIn_extends_here : ∀ (s p q : List Char),
    occursIn (p ++ q) s = true → occursIn p s = true := by
  intro s
  induction s with
  | nil =>
    intro p q h
    rw [occursIn] at h ⊢
    simp only [List.isEmpty_iff] at h ⊢
    exact (List.append_eq_nil.1 h).1
  | cons c t ih =>
    intro p q h
    rw [occursIn] at h ⊢
    cases hpre : (p ++ q).isPrefixOf (c :: t) with
    | true =>
      rw [isPrefixOf_iff] at hpre
      obtain ⟨r, hr⟩ := hpre
      have : p.isPrefixOf (c :: t) = true := by
        rw [isPrefixOf_iff]
        exact ⟨q ++ r, by rw [hr, List.append_assoc]⟩
      rw [this]
      rfl
    | false =>
      rw [hpre] at h
      simp only [Bool.false_or] at h
      rw [ih p q h]
      simp

/-! ## Claim C2: where match texts come from -/

theorem matches_from_step {f : MStep α} (hf : StepWF f) :
    ∀ s m, m ∈ toksMatches (tokenize f s) → ∃ s2 a r, f s2 = some (a, m, r) := by
  have H : ∀ n (s : List Char), s.length ≤ n → ∀ m, m ∈ toksMatches (tokenize f s) →
      ∃ s2 a r, f s2 = some (a, m, r) := by
    intro n
    induction n using Nat.strong_induction_on with
    | _ n ih =>
      intro s hs m hm
      cases s with
      | nil => rw [tokenize_nil] at hm; cases hm
      | cons c t =>
        cases n with
        | zero => simp at hs
        | succ n2 =>
          cases hstep : f (c :: t) with
          | none =>
            rw [tokenize_chr hstep] at hm
            simp only [toksMatches] at hm
            exact ih n2 (by omega) t (by simp at hs; omega) m hm
          | some v =>
            obtain ⟨a, cs, r⟩ := v
            have hr := stepwf_rest_lt hf hstep
            rw [tokenize_tok hf hstep] at hm
            simp only [toksMatches] at hm
            rcases List.mem_cons.1 hm with rfl | hin
            · exact ⟨c :: t, a, r, hstep⟩
            · exact ih n2 (by omega) r (by simp at hs hr; omega) m hin
  intro s
  exact H s.length s (le_refl _) 

theorem matches_sub {f : MStep α} (hf : StepWF f) :
    ∀ s m, m ∈ toksMatches (tokenize f s) → ∃ u w, s = u ++ m ++ w := by
  have H : ∀ n (s : List Char), s.length ≤ n → ∀ m, m ∈ toksMatches (tokenize f s) →
      ∃ u w, s = u ++ m ++ w := by
    intro n
    induction n using Nat.strong_induction_on with
    | _ n ih =>
      intro s hs m hm
      cases s with
      | nil => rw [tokenize_nil] at hm; cases hm
      | cons c t =>
        cases n with
        | zero => simp at hs
        | succ n2 =>
          cases hstep : f (c :: t) with
          | none =>
            rw [tokenize_chr hstep] at hm
            simp only [toksMatches] at hm
            obtain ⟨u, w, he⟩ := ih n2 (by omega) t (by simp at hs; omega) m hm
            exact ⟨c :: u, w, by rw [List.cons_append, List.cons_append, ← he]⟩
          | some v =>
            obtain ⟨a, cs, r⟩ := v
            have hr := stepwf_rest_lt hf hstep
            have hsp := (hf _ _ _ _ hstep).1
            rw [tokenize_tok hf hstep] at hm
            simp only [toksMatches] at hm
            rcases List.mem_cons.1 hm with rfl | hin
            · exact ⟨[], r, by rw [List.nil_append]; exact hsp⟩
            · obtain ⟨u, w, he⟩ := ih n2 (by omega) r (by simp at hs hr; omega) m hin
              refine ⟨cs ++ u, w, ?_⟩
              rw [hsp, he]
              simp [List.append_assoc]
  intro s
  exact H s.length s (le_refl _)

theorem mathRest_last : ∀ t u r, mathRest t = some (u, r) → u.getLast? = some '$' := by
  have H : ∀ n (t : List Char), t.length ≤ n →
      ∀ u r, mathRest t = some (u, r) → u.getLast? = some '$' := by
    intro n
    induction n using Nat.strong_induction_on with
    | _ n ih =>
      intro t ht u r h
      rw [mathRest.eq_def] at h
      split at h
      · cases h
      · cases h
        rfl
      · rename_i t2
        cases h2 : mathRest t2 with
        | some v =>
          obtain ⟨u2, r2⟩ := v
          rw [h2] at h
          cases h
          have hlast := ih (n - 1) (by simp at ht; omega) t2 (by simp at ht; omega) u2 r h2
          have hne : u2 ≠ [] := by intro he; rw [he] at hlast; cases hlast
          rw [getLast_cons_of_ne_nil (by simp), getLast_cons_of_ne_nil hne]
          exact hlast
        | none =>
          rw [h2] at h
          cases h
          rfl
      · rename_i c t2 hne1 hne2
        cases h2 : mathRest t2 with
        | some v =>
          obtain ⟨u2, r2⟩ := v
          rw [h2] at h
          cases h
          have hlast := ih (n - 1) (by simp at ht; omega) t2 (by simp at ht; omega) u2 r h2
          have hne : u2 ≠ [] := by intro he; rw [he] at hlast; cases hlast
          rw [getLast_cons_of_ne_nil hne]
          exact hlast
        | none =>
          rw [h2] at h
          cases h
  intro t
  exact H t.length t (le_refl _)

theorem mathStep_shape {s : List Char} {a : Unit} {cs r : List Char}
    (h : mathStep s = some (a, cs, r)) :
    cs.headI = '$' ∧ cs ≠ [] ∧ cs.getLast? = some '$' := by
  rw [mathStep.eq_def] at h
  split at h
  · rename_i t
    split at h
    · cases h
    · cases h2 : mathRest t with
      | some v =>
        obtain ⟨u, r2⟩ := v
        rw [h2] at h
        cases h
        have hlast := mathRest_last t u r h2
        have hne : u ≠ [] := by intro he; rw [he] at hlast; cases hlast
        exact ⟨rfl, by simp, by rw [getLast_cons_of_ne_nil hne]; exact hlast⟩
      | none =>
        rw [h2] at h
        cases h
  · cases h

theorem graphieStep_shape {s : List Char} {a : Unit} {cs r : List Char}
    (h : graphieStep s = some (a, cs, r)) :
    cs.headI = '!' ∧ cs ≠ [] ∧ cs.getLast? = some ')' := by
  rw [graphieStep.eq_def] at h
  split at h
  · rename_i t
    split at h
    · split at h
      · cases h
      · cases h
        refine ⟨rfl, by simp, ?_⟩
        rw [getLast_cons_of_ne_nil (by simp), getLast_cons_of_ne_nil (by simp),
          getLast_cons_of_ne_nil (by simp), getLast_cons_of_ne_nil (by simp),
          getLast_concat_eq]
    · cases h
  · cases h

theorem widgetStep_shape {s : List Char} {a : Unit} {cs r : List Char}
    (h : widgetStep s = some (a, cs, r)) :
    cs.headI = '[' ∧ cs ≠ [] ∧ cs.getLast? = some ']' := by
  rw [widgetStep.eq_def] at h
  split at h
  · rename_i t
    split at h
    · split at h
      · cases h
      · cases h
        refine ⟨rfl, by simp, ?_⟩
        have hsplit2 : t.takeWhile (fun x => decide (x ≠ ']')) ++ [']', ']'] =
            (t.takeWhile (fun x => decide (x ≠ ']')) ++ [']']) ++ [']'] := by
          simp
        rw [getLast_cons_of_ne_nil (by simp), getLast_cons_of_ne_nil (by simp),
          getLast_cons_of_ne_nil (by simp), hsplit2, getLast_concat_eq]
    · cases h
  · cases h

theorem matches_good_math {E : List Char} (hd : occursIn dund E = false) :
    ∀ m ∈ matchesOf .math E, GoodVal '$' m := by
  intro m hm
  obtain ⟨s2, a, r, hstep⟩ := matches_from_step (kindStep_wf .math) E m hm
  obtain ⟨h1, h2, h3⟩ := mathStep_shape (show mathStep s2 = _ from hstep)
  obtain ⟨u, w, hsub⟩ := matches_sub (kindStep_wf .math) E m hm
  refine ⟨h1, h2, occursIn_sub_false u m w dund (hsub ▸ hd), ?_⟩
  rw [h3]
  simp

theorem matches_good_graphie {E : List Char} (hd : occursIn dund E = false) :
    ∀ m ∈ matchesOf .graphie E, GoodVal '!' m := by
  intro m hm
  obtain ⟨s2, a, r, hstep⟩ := matches_from_step (kindStep_wf .graphie) E m hm
  obtain ⟨h1, h2, h3⟩ := graphieStep_shape (show graphieStep s2 = _ from hstep)
  obtain ⟨u, w, hsub⟩ := matches_sub (kindStep_wf .graphie) E m hm
  refine ⟨h1, h2, occursIn_sub_false u m w dund (hsub ▸ hd), ?_⟩
  rw [h3]
  simp

theorem matches_good_widget {E : List Char} (hd : occursIn dund E = false) :
    ∀ m ∈ matchesOf .widget E, GoodVal '[' m := by
  intro m hm
  obtain ⟨s2, a, r, hstep⟩ := matches_from_step (kindStep_wf .widget) E m hm
  obtain ⟨h1, h2, h3⟩ := widgetStep_shape (show widgetStep s2 = _ from hstep)
  obtain ⟨u, w, hsub⟩ := matches_sub (kindStep_wf .widget) E m hm
  refine ⟨h1, h2, occursIn_sub_false u m w dund (hsub ▸ hd), ?_⟩
  rw [h3]
  simp

/-! ## Claim C2: the math dictionary is empty without text fragments -/

theorem textStep_needs_marker {v : List Char} {x : List Char × List Char × List Char}
    (h : textStep v = some x) : ("\\text\x7b".data).isPrefixOf v = true := by
  rw [textStep.eq_def] at h
  split at h
  · rename_i t
    exact (isPrefixOf_iff _ _).2 ⟨t, rfl⟩
  · cases h

theorem normTexts_id {m : List Char} (h : occursIn "\\text\x7b".data m = false) :
    normTexts m = m := by
  have hnone : ∀ u v, m = u ++ v → textStep v = none := by
    intro u v huv
    cases hts : textStep v with
    | none => rfl
    | some x =>
      exfalso
      have hpre := textStep_needs_marker hts
      have hocc := occursIn_of_mid u v _ hpre
      rw [← huv, h] at hocc
      cases hocc
  rw [normTexts, replaceAllK, tokenize_all_chr m hnone, toksSubstConst_map_chr]

theorem bucketAdd_keys {mp : List (List Char × List (List Char))} {k v key : List Char}
    (h : key ∈ (bucketAdd mp k v).map Prod.fst) : key ∈ mp.map Prod.fst ∨ key = k := by
  rw [bucketAdd] at h
  split at h
  · left
    simp only [List.map_map] at h
    have hf : (Prod.fst ∘ fun e : List Char × List (List Char) =>
        if e.1 = k then (e.1, e.2 ++ [v]) else e) = Prod.fst := by
      funext e
      show (if e.1 = k then (e.1, e.2 ++ [v]) else e).1 = e.1
      split <;> rfl
    rw [hf] at h
    exact h
  · rw [List.map_append] at h
    rcases List.mem_append.1 h with h1 | h2
    · exact Or.inl h1
    · simp only [List.map_cons, List.map_nil, List.mem_singleton] at h2
      exact Or.inr h2

theorem buildMap_keys : ∀ (ms : List (List Char)) (mp : List (List Char × List (List Char)))
    (key : List Char),
    key ∈ (ms.foldl (fun mp m => bucketAdd mp (normTexts m) m) mp).map Prod.fst →
    key ∈ mp.map Prod.fst ∨ ∃ m ∈ ms, key = normTexts m := by
  intro ms
  induction ms with
  | nil => intro mp key h; exact Or.inl h
  | cons m ms ih =>
    intro mp key h
    rw [List.foldl_cons] at h
    rcases ih _ key h with hin | ⟨m2, hm2, he⟩
    · rcases bucketAdd_keys hin with h1 | h2
      · exact Or.inl h1
      · exact Or.inr ⟨m, by simp, h2⟩
    · exact Or.inr ⟨m2, by simp [hm2], he⟩

theorem insertNumKey_mem {x k : List Char} : ∀ {l : List (List Char)},
    x ∈ insertNumKey k l → x = k ∨ x ∈ l := by
  intro l
  induction l with
  | nil =>
    intro h
    rw [insertNumKey] at h
    exact Or.inl (by simpa using h)
  | cons y ys ih =>
    intro h
    rw [insertNumKey] at h
    split at h
    · rcases List.mem_cons.1 h with h1 | h2
      · exact Or.inl h1
      · exact Or.inr h2
    · rcases List.mem_cons.1 h with h1 | h2
      · exact Or.inr (by simp [h1])
      · rcases ih h2 with h3 | h4
        · exact Or.inl h3
        · exact Or.inr (by simp [h4])

theorem foldl_insert_mem {x : List Char} : ∀ (l : List (List Char)) (a : List (List Char)),
    x ∈ l.foldl (fun acc k => insertNumKey k acc) a → x ∈ a ∨ x ∈ l := by
  intro l
  induction l with
  | nil => intro a h; exact Or.inl h
  | cons k ks ih =>
    intro a h
    rw [List.foldl_cons] at h
    rcases ih _ h with h1 | h2
    · rcases insertNumKey_mem h1 with h3 | h4
      · exact Or.inr (by simp [h3])
      · exact Or.inl h4
    · exact Or.inr (by simp [h2])

theorem jsKeysOrder_mem {x : List Char} {ks : List (List Char)}
    (h : x ∈ jsKeysOrder ks) : x ∈ ks := by
  rw [jsKeysOrder] at h
  rcases List.mem_append.1 h with h1 | h2
  · rcases foldl_insert_mem _ _ h1 with h3 | h4
    · cases h3
    · exact List.mem_of_mem_filter h4
  · exact List.mem_of_mem_filter h2

theorem foldl_skip {β : Type} (g : β → List Char → β) (cond : List Char → Bool) :
    ∀ (keys : List (List Char)) (d : β), (∀ k ∈ keys, cond k = false) →
      keys.foldl (fun dict key => if cond key then g dict key else dict) d = d := by
  intro keys
  induction keys with
  | nil => intro d _; rfl
  | cons k ks ih =>
    intro d hk
    rw [List.foldl_cons, if_neg (by rw [hk k (by simp)]; simp)]
    exact ih d (fun k2 hk2 => hk k2 (by simp [hk2]))

theorem getMathDictionary_nil {E T : List Char}
    (ht : occursIn "\\text\x7b".data E = false) (hd : occursIn dund E = false) :
    getMathDictionary E T = [] := by
  have hkeys : ∀ key ∈ jsKeysOrder ((buildMap (matchesOf .math E)).map Prod.fst),
      occursIn "__TEXT__".data key = false := by
    intro key hk
    have hk2 := jsKeysOrder_mem hk
    rcases buildMap_keys (matchesOf .math E) [] key hk2 with h0 | ⟨m, hm, he⟩
    · simp at h0
    · subst he
      obtain ⟨u, w, hsub⟩ := matches_sub (kindStep_wf .math) E m hm
      have hnm : occursIn "\\text\x7b".data m = false :=
        occursIn_sub_false u m w _ (hsub ▸ ht)
      have hdm : occursIn dund m = false := occursIn_sub_false u m w _ (hsub ▸ hd)
      rw [normTexts_id hnm]
      cases hTT : occursIn "__TEXT__".data m with
      | false => rfl
      | true =>
        exfalso
        have hext : occursIn dund m = true := by
          refine occursIn_extends_here m dund "TEXT__".data ?_
          rw [show dund ++ "TEXT__".data = "__TEXT__".data from rfl]
          exact hTT
        rw [hdm] at hext
        cases hext
  rw [getMathDictionary]
  exact foldl_skip _ _ _ _ hkeys

/-! ## Claim C2: literal-pattern scans and the stand-in transfer -/

theorem litStep_self {p : List Char} (hp : p ≠ []) (x : List Char) :
    litStep p (p ++ x) = some ((), p, x) := by
  rw [litStep, if_pos ⟨hp, isPrefixOf_append_self p x⟩, List.drop_left]

theorem litStep_none_iff {p z : List Char} (hp : p ≠ []) :
    litStep p z = none ↔ p.isPrefixOf z = false := by
  rw [litStep]
  constructor
  · intro h
    cases hpre : p.isPrefixOf z with
    | false => rfl
    | true => rw [if_pos ⟨hp, hpre⟩] at h; cases h
  · intro hpre
    rw [if_neg]
    intro hc
    rw [hpre] at hc
    exact absurd hc.2 (by simp)

theorem toksSubstCb_chr (vals : Nat → List Char) (c : Char) (ts : List (Tok Unit))
    (i : Nat) : toksSubstCb vals (.chr c :: ts) i =
      (c :: (toksSubstCb vals ts i).1, (toksSubstCb vals ts i).2) := rfl

theorem toksSubstCb_tok (vals : Nat → List Char) (a : Unit) (cs : List Char)
    (ts : List (Tok Unit)) (i : Nat) : toksSubstCb vals (.tok a cs :: ts) i =
      (vals i ++ (toksSubstCb vals ts (i + 1)).1, (toksSubstCb vals ts (i + 1)).2) := rfl

theorem toksSubstCb_append (vals : Nat → List Char) :
    ∀ (ts us : List (Tok Unit)) (i : Nat),
      toksSubstCb vals (ts ++ us) i =
        ((toksSubstCb vals ts i).1 ++ (toksSubstCb vals us (toksSubstCb vals ts i).2).1,
         (toksSubstCb vals us (toksSubstCb vals ts i).2).2) := by
  intro ts
  induction ts with
  | nil => intro us i; rfl
  | cons t ts ih =>
    intro us i
    cases t with
    | chr c =>
      rw [List.cons_append, toksSubstCb_chr, toksSubstCb_chr, ih]
      rfl
    | tok a cs =>
      rw [List.cons_append, toksSubstCb_tok, toksSubstCb_tok, ih]
      simp [List.append_assoc]

theorem toksSubstCb_map_chr (vals : Nat → List Char) :
    ∀ (s : List Char) (i : Nat), toksSubstCb (α := Unit) vals (s.map .chr) i = (s, i) := by
  intro s
  induction s with
  | nil => intro i; rfl
  | cons c s2 ih => intro i; rw [List.map_cons, toksSubstCb_chr, ih]

theorem toksSubstCb_single (vals : Nat → List Char) (p : List Char) (i : Nat) :
    toksSubstCb vals [Tok.tok () p] i = (vals i, i + 1) := by
  rw [toksSubstCb_tok]
  show (vals i ++ [], i + 1) = _
  rw [List.append_nil]

theorem toksSubstEach_map_chr (g : List Char → List Char) :
    ∀ s : List Char, toksSubstEach (α := Unit) g (s.map .chr) = s := by
  intro s
  induction s with
  | nil => rfl
  | cons c s2 ih => simp only [List.map_cons, toksSubstEach, ih]

theorem scan_inv {p : List Char} : ∀ (s X : List Char) (ts : List (Tok Unit)),
    tokenize (litStep p) (s ++ X) = s.map .chr ++ ts →
    ∀ u v, s = u ++ v → v ≠ [] → litStep p (v ++ X) = none := by
  intro s
  induction s with
  | nil =>
    intro X ts h u v huv hv
    exact absurd (List.append_eq_nil.1 huv.symm).2 hv
  | cons c s2 ih =>
    intro X ts h u v huv hv
    have hnone : litStep p (c :: (s2 ++ X)) = none := by
      cases hstep : litStep p (c :: (s2 ++ X)) with
      | none => rfl
      | some w =>
        exfalso
        obtain ⟨a, cs, r⟩ := w
        rw [show (c :: s2) ++ X = c :: (s2 ++ X) from rfl,
          tokenize_tok (litStep_wf p) hstep] at h
        simp at h
    have h2 : tokenize (litStep p) (s2 ++ X) = s2.map .chr ++ ts := by
      rw [show (c :: s2) ++ X = c :: (s2 ++ X) from rfl, tokenize_chr hnone] at h
      simp only [List.map_cons, List.cons_append, List.cons.injEq] at h
      exact h.2
    cases u with
    | nil =>
      have hveq : v = c :: s2 := by simpa using huv.symm
      rw [hveq]
      exact hnone
    | cons d u2 =>
      have hc : c = d ∧ s2 = u2 ++ v := by
        rw [List.cons_append] at huv
        exact ⟨by injection huv, by injection huv with h1 h2⟩
      exact ih X ts h2 u2 v hc.2 hv

theorem parvals_isPrefixOf {p : List Char} : ∀ {r r2 : List Seg}, ParVals r r2 →
    ∀ q : List Char, q ≠ [] → (∀ c ∈ q, c ≠ '$' ∧ c ≠ '!' ∧ c ≠ '[') →
    q.isPrefixOf (segsText p r) = q.isPrefixOf (segsText p r2) := by
  intro r r2 hpv
  induction hpv with
  | nil => intro q _ _; rfl
  | hit ra rb hpv2 ih =>
    intro q hq hqc
    show q.isPrefixOf (p ++ segsText p ra) = q.isPrefixOf (p ++ segsText p rb)
    rcases Nat.lt_or_ge p.length q.length with hlen | hlen
    · rw [isPrefixOf_append_short q p _ hlen, isPrefixOf_append_short q p _ hlen,
        ih (q.drop p.length)
          (by intro hnil
              have := congrArg List.length hnil
              simp only [List.length_drop, List.length_nil] at this
              omega)
          (fun c hc => hqc c (List.mem_of_mem_drop hc))]
    · rw [isPrefixOf_append_long q p _ hlen, isPrefixOf_append_long q p _ hlen]
  | same s ra rb hpv2 ih =>
    intro q hq hqc
    show q.isPrefixOf (s ++ segsText p ra) = q.isPrefixOf (s ++ segsText p rb)
    rcases Nat.lt_or_ge s.length q.length with hlen | hlen
    · rw [isPrefixOf_append_short q s _ hlen, isPrefixOf_append_short q s _ hlen,
        ih (q.drop s.length)
          (by intro hnil
              have := congrArg List.length hnil
              simp only [List.length_drop, List.length_nil] at this
              omega)
          (fun c hc => hqc c (List.mem_of_mem_drop hc))]
    · rw [isPrefixOf_append_long q s _ hlen, isPrefixOf_append_long q s _ hlen]
  | val s b ra rb hhead hb hne hdund hlast hpv2 ih =>
    intro q hq hqc
    cases q with
    | nil => exact absurd rfl hq
    | cons qc q2 =>
      obtain ⟨s2, hs⟩ : ∃ s2, s = b :: s2 := by
        cases s with
        | nil => exact absurd rfl hne
        | cons x xs => exact ⟨xs, by rw [show x = b from hhead]⟩
      have hqb : (qc == b) = false := by
        rw [beq_eq_false_iff_ne]
        have := hqc qc (by simp)
        rcases hb with rfl | rfl | rfl
        · exact this.1
        · exact this.2.1
        · exact this.2.2
      have h1 : (qc :: q2).isPrefixOf (segsText p (.inert s :: ra)) = false := by
        rw [hs]
        show ((qc == b) && _) = false
        rw [hqb]
        rfl
      have h2 : (qc :: q2).isPrefixOf (segsText p (.inert [b] :: rb)) = false := by
        show ((qc == b) && _) = false
        rw [hqb]
        rfl
      rw [h1, h2]

theorem parvals_litStep_pfx {p : List Char}
    (hpc : ∀ c ∈ p, c ≠ '$' ∧ c ≠ '!' ∧ c ≠ '[')
    {r r2 : List Seg} (hpv : ParVals r r2) (v : List Char) :
    p.isPrefixOf (v ++ segsText p r) = p.isPrefixOf (v ++ segsText p r2) := by
  rcases Nat.lt_or_ge v.length p.length with hlen | hlen
  · rw [isPrefixOf_append_short p v _ hlen, isPrefixOf_append_short p v _ hlen,
      parvals_isPrefixOf hpv (p.drop v.length)
        (by intro hnil
            have := congrArg List.length hnil
            simp only [List.length_drop, List.length_nil] at this
            omega)
        (fun c hc => hpc c (List.mem_of_mem_drop hc))]
  · rw [isPrefixOf_append_long p v _ hlen, isPrefixOf_append_long p v _ hlen]

theorem scan_transfer {p : List Char} (hp : p ≠ [])
    (hdp : dund.isPrefixOf p = true)
    (hpc : ∀ c ∈ p, c ≠ '$' ∧ c ≠ '!' ∧ c ≠ '[') :
    ∀ {r r2 : List Seg}, ParVals r r2 →
    tokenize (litStep p) (segsText p r2) = catMap (segToks p) r2 →
    tokenize (litStep p) (segsText p r) = catMap (segToks p) r := by
  intro r r2 hpv
  induction hpv with
  | nil => intro _; rfl
  | hit ra rb hpv2 ih =>
    intro h
    have hb : tokenize (litStep p) (segsText p rb) = catMap (segToks p) rb := by
      have h2 : Tok.tok () p :: tokenize (litStep p) (segsText p rb) =
          Tok.tok () p :: catMap (segToks p) rb := by
        rw [← tokenize_tok (litStep_wf p) (litStep_self hp (segsText p rb))]
        exact h
      injection h2
    show tokenize (litStep p) (p ++ segsText p ra) = Tok.tok () p :: catMap (segToks p) ra
    rw [tokenize_tok (litStep_wf p) (litStep_self hp (segsText p ra)), ih hb]
  | same s ra rb hpv2 ih =>
    intro h
    have hnone2 : ∀ u v, s = u ++ v → v ≠ [] →
        litStep p (v ++ segsText p rb) = none :=
      scan_inv s (segsText p rb) (catMap (segToks p) rb) h
    have hnone : ∀ u v, s = u ++ v → v ≠ [] →
        litStep p (v ++ segsText p ra) = none := by
      intro u v huv hv
      rw [litStep_none_iff hp, parvals_litStep_pfx hpc hpv2 v,
        ← litStep_none_iff hp]
      exact hnone2 u v huv hv
    have hb : tokenize (litStep p) (segsText p rb) = catMap (segToks p) rb := by
      have h2 := h
      rw [show segsText p (.inert s :: rb) = s ++ segsText p rb from rfl,
        tokenize_append_chr s (segsText p rb) hnone2] at h2
      exact List.append_cancel_left h2
    show tokenize (litStep p) (s ++ segsText p ra) =
      s.map .chr ++ catMap (segToks p) ra
    rw [tokenize_append_chr s (segsText p ra) hnone, ih hb]
  | val s b ra rb hhead hb hne hdund hlast hpv2 ih =>
    intro h
    obtain ⟨p3, hp3⟩ : ∃ p3, p = '_' :: '_' :: p3 := by
      rw [isPrefixOf_iff] at hdp
      obtain ⟨t3, ht3⟩ := hdp
      exact ⟨t3, by rw [ht3]; rfl⟩
    subst hp3
    have hrb : tokenize (litStep ('_' :: '_' :: p3)) (segsText ('_' :: '_' :: p3) rb) =
        catMap (segToks ('_' :: '_' :: p3)) rb := by
      have hnone_b : litStep ('_' :: '_' :: p3) (b :: segsText ('_' :: '_' :: p3) rb) = none := by
        cases hstep : litStep ('_' :: '_' :: p3) (b :: segsText ('_' :: '_' :: p3) rb) with
        | none => rfl
        | some w =>
          exfalso
          obtain ⟨a, cs, r0⟩ := w
          rw [show segsText ('_' :: '_' :: p3) (.inert [b] :: rb) =
              b :: segsText ('_' :: '_' :: p3) rb from rfl,
            tokenize_tok (litStep_wf _) hstep] at h
          have h3 : catMap (segToks ('_' :: '_' :: p3)) (.inert [b] :: rb) =
              Tok.chr b :: catMap (segToks ('_' :: '_' :: p3)) rb := rfl
          rw [h3] at h
          simp at h
      have h2 := h
      rw [show segsText ('_' :: '_' :: p3) (.inert [b] :: rb) =
          b :: segsText ('_' :: '_' :: p3) rb from rfl,
        tokenize_chr hnone_b] at h2
      have h3 : catMap (segToks ('_' :: '_' :: p3)) (.inert [b] :: rb) =
          Tok.chr b :: catMap (segToks ('_' :: '_' :: p3)) rb := rfl
      rw [h3] at h2
      injection h2
    have hra := ih hrb
    have hnone : ∀ u v, s = u ++ v → v ≠ [] →
        litStep ('_' :: '_' :: p3) (v ++ segsText ('_' :: '_' :: p3) ra) = none := by
      intro u v huv hv
      rw [litStep_none_iff hp]
      cases v with
      | nil => exact absurd rfl hv
      | cons c v2 =>
        cases v2 with
        | nil =>
          have hc : s.getLast? = some c := by rw [huv]; exact getLast_concat_eq u c
          show (('_' == c) && _) = false
          have hcne : ('_' == c) = false := by
            rw [beq_eq_false_iff_ne]
            intro he
            rw [← he] at hc
            exact hlast hc
          rw [hcne]
          rfl
        | cons d v3 =>
          cases hpre : ('_' :: '_' :: p3).isPrefixOf
              (c :: d :: v3 ++ segsText ('_' :: '_' :: p3) ra) with
          | false => rfl
          | true =>
            exfalso
            have hpre2 : (('_' == c) && (('_' == d) &&
                p3.isPrefixOf (v3 ++ segsText ('_' :: '_' :: p3) ra))) = true := hpre
            simp only [Bool.and_eq_true, beq_iff_eq] at hpre2
            have hocc : occursIn dund s = true := by
              rw [huv]
              apply occursIn_of_mid
              show dund.isPrefixOf (c :: d :: v3) = true
              rw [← hpre2.1, ← hpre2.2.1]
              show (('_' == '_') && (('_' == '_') && List.isPrefixOf [] v3)) = true
              simp [List.isPrefixOf]
            rw [hdund] at hocc
            cases hocc
    show tokenize (litStep ('_' :: '_' :: p3)) (s ++ segsText ('_' :: '_' :: p3) ra) =
      s.map .chr ++ catMap (segToks ('_' :: '_' :: p3)) ra
    rw [tokenize_append_chr s (segsText ('_' :: '_' :: p3) ra) hnone, hra]

/-! ## Claim C2: the template line and the three population passes -/

theorem phline_segs : ∀ ts : List (Tok Kind),
    toksSubstConst widgetPH (projPh2 ts) = segsText mathPH (segs1 ts) := by
  intro ts
  induction ts with
  | nil => rfl
  | cons t ts ih =>
    cases t with
    | chr c =>
      show c :: toksSubstConst widgetPH (projPh2 ts) = [c] ++ segsText mathPH (segs1 ts)
      rw [ih]
      rfl
    | tok k cs =>
      cases k with
      | math =>
        show toksSubstConst widgetPH (mathPH.map .chr ++ projPh2 ts) =
          mathPH ++ segsText mathPH (segs1 ts)
        rw [toksSubstConst_append, toksSubstConst_map_chr, ih]
      | graphie =>
        show toksSubstConst widgetPH (graphiePH.map .chr ++ projPh2 ts) =
          graphiePH ++ segsText mathPH (segs1 ts)
        rw [toksSubstConst_append, toksSubstConst_map_chr, ih]
      | widget =>
        show widgetPH ++ toksSubstConst widgetPH (projPh2 ts) =
          widgetPH ++ segsText mathPH (segs1 ts)
        rw [ih]

theorem phLine_eq {l : List Char}
    (c3 : tokenize widgetStep (replaceAllK graphieStep graphiePH
      (replaceAllK mathStep mathPH l)) = projPh2 (tokenize mgwStep l)) :
    phLine l = segsText mathPH (segs1 (tokenize mgwStep l)) := by
  rw [phLine, replaceAllK, c3, phline_segs]

theorem pass1_subst (vals : Nat → List Char) :
    ∀ (ts : List (Tok Kind)) (mi : Nat),
      toksSubstCb vals (catMap (segToks mathPH) (segs1 ts)) mi =
        (segsText graphiePH (segs2r vals ts mi), mi + (kindTexts .math ts).length) := by
  intro ts
  induction ts with
  | nil => intro mi; rfl
  | cons t ts ih =>
    intro mi
    cases t with
    | chr c =>
      show toksSubstCb vals (Tok.chr c :: catMap (segToks mathPH) (segs1 ts)) mi = _
      rw [toksSubstCb_chr, ih]
      rfl
    | tok k cs =>
      cases k with
      | math =>
        show toksSubstCb vals (Tok.tok () mathPH :: catMap (segToks mathPH) (segs1 ts)) mi = _
        rw [toksSubstCb_tok, ih]
        show (vals mi ++ segsText graphiePH (segs2r vals ts (mi + 1)),
          (mi + 1) + (kindTexts .math ts).length) = _
        have hc : kindTexts .math (Tok.tok Kind.math cs :: ts) =
            cs :: kindTexts .math ts := rfl
        rw [hc]
        show _ = (vals mi ++ segsText graphiePH (segs2r vals ts (mi + 1)),
          mi + ((kindTexts .math ts).length + 1))
        have : (mi + 1) + (kindTexts .math ts).length =
            mi + ((kindTexts .math ts).length + 1) := by omega
        rw [this]
      | graphie =>
        show toksSubstCb vals (graphiePH.map .chr ++ catMap (segToks mathPH) (segs1 ts)) mi = _
        rw [toksSubstCb_append, toksSubstCb_map_chr, ih]
        rfl
      | widget =>
        show toksSubstCb vals (widgetPH.map .chr ++ catMap (segToks mathPH) (segs1 ts)) mi = _
        rw [toksSubstCb_append, toksSubstCb_map_chr, ih]
        rfl

theorem pass2_subst (mvals gvals : Nat → List Char) :
    ∀ (ts : List (Tok Kind)) (mi gi : Nat),
      toksSubstCb gvals (catMap (segToks graphiePH) (segs2r mvals ts mi)) gi =
        (segsText widgetPH (segs3r mvals gvals ts mi gi),
         gi + (kindTexts .graphie ts).length) := by
  intro ts
  induction ts with
  | nil => intro mi gi; rfl
  | cons t ts ih =>
    intro mi gi
    cases t with
    | chr c =>
      show toksSubstCb gvals (Tok.chr c :: catMap (segToks graphiePH) (segs2r mvals ts mi)) gi = _
      rw [toksSubstCb_chr, ih]
      rfl
    | tok k cs =>
      cases k with
      | math =>
        show toksSubstCb gvals ((mvals mi).map .chr ++
          catMap (segToks graphiePH) (segs2r mvals ts (mi + 1))) gi = _
        rw [toksSubstCb_append, toksSubstCb_map_chr, ih]
        rfl
      | graphie =>
        show toksSubstCb gvals (Tok.tok () graphiePH ::
          catMap (segToks graphiePH) (segs2r mvals ts mi)) gi = _
        rw [toksSubstCb_tok, ih]
        show (gvals gi ++ segsText widgetPH (segs3r mvals gvals ts mi (gi + 1)),
          (gi + 1) + (kindTexts .graphie ts).length) = _
        have hc : kindTexts .graphie (Tok.tok Kind.graphie cs :: ts) =
            cs :: kindTexts .graphie ts := rfl
        rw [hc]
        show _ = (gvals gi ++ segsText widgetPH (segs3r mvals gvals ts mi (gi + 1)),
          gi + ((kindTexts .graphie ts).length + 1))
        have : (gi + 1) + (kindTexts .graphie ts).length =
            gi + ((kindTexts .graphie ts).length + 1) := by omega
        rw [this]
      | widget =>
        show toksSubstCb gvals (widgetPH.map .chr ++
          catMap (segToks graphiePH) (segs2r mvals ts mi)) gi = _
        rw [toksSubstCb_append, toksSubstCb_map_chr, ih]
        rfl

theorem pass3_subst (mvals gvals wvals : Nat → List Char) :
    ∀ (ts : List (Tok Kind)) (mi gi wi : Nat),
      toksSubstCb wvals (catMap (segToks widgetPH) (segs3r mvals gvals ts mi gi)) wi =
        (lineFinal mvals gvals wvals ts mi gi wi,
         wi + (kindTexts .widget ts).length) := by
  intro ts
  induction ts with
  | nil => intro mi gi wi; rfl
  | cons t ts ih =>
    intro mi gi wi
    cases t with
    | chr c =>
      show toksSubstCb wvals (Tok.chr c ::
        catMap (segToks widgetPH) (segs3r mvals gvals ts mi gi)) wi = _
      rw [toksSubstCb_chr, ih]
      rfl
    | tok k cs =>
      cases k with
      | math =>
        show toksSubstCb wvals ((mvals mi).map .chr ++
          catMap (segToks widgetPH) (segs3r mvals gvals ts (mi + 1) gi)) wi = _
        rw [toksSubstCb_append, toksSubstCb_map_chr, ih]
        rfl
      | graphie =>
        show toksSubstCb wvals ((gvals gi).map .chr ++
          catMap (segToks widgetPH) (segs3r mvals gvals ts mi (gi + 1))) wi = _
        rw [toksSubstCb_append, toksSubstCb_map_chr, ih]
        rfl
      | widget =>
        show toksSubstCb wvals (Tok.tok () widgetPH ::
          catMap (segToks widgetPH) (segs3r mvals gvals ts mi gi)) wi = _
        rw [toksSubstCb_tok, ih]
        show (wvals wi ++ lineFinal mvals gvals wvals ts mi gi (wi + 1),
          (wi + 1) + (kindTexts .widget ts).length) = _
        have hc : kindTexts .widget (Tok.tok Kind.widget cs :: ts) =
            cs :: kindTexts .widget ts := rfl
        rw [hc]
        show _ = (wvals wi ++ lineFinal mvals gvals wvals ts mi gi (wi + 1),
          wi + ((kindTexts .widget ts).length + 1))
        have : (wi + 1) + (kindTexts .widget ts).length =
            wi + ((kindTexts .widget ts).length + 1) := by omega
        rw [this]

theorem parvals_segs2r (mvals : Nat → List Char) :
    ∀ (ts : List (Tok Kind)) (mi gi : Nat),
      (∀ n, n < (kindTexts .math ts).length → GoodVal '$' (mvals (mi + n))) →
      ParVals (segs2r mvals ts mi) (segs2r standM ts gi) := by
  intro ts
  induction ts with
  | nil => intro mi gi _; exact .nil
  | cons t ts ih =>
    intro mi gi hv
    cases t with
    | chr c => exact .same [c] _ _ (ih mi gi hv)
    | tok k cs =>
      cases k with
      | math =>
        have hlen : kindTexts .math (Tok.tok Kind.math cs :: ts) =
            cs :: kindTexts .math ts := rfl
        have hgv : GoodVal '$' (mvals mi) := by
          have := hv 0 (by rw [hlen]; simp)
          simpa using this
        refine .val (mvals mi) '$' _ _ hgv.1 (Or.inl rfl) hgv.2.1 hgv.2.2.1 hgv.2.2.2 ?_
        refine ih (mi + 1) (gi + 1) ?_
        intro n hn
        have h2 := hv (n + 1) (by rw [hlen]; simpa using Nat.succ_lt_succ hn)
        rwa [show mi + (n + 1) = (mi + 1) + n by omega] at h2
      | graphie => exact .hit _ _ (ih mi gi hv)
      | widget => exact .same widgetPH _ _ (ih mi gi hv)

theorem parvals_segs3r (mvals gvals : Nat → List Char) :
    ∀ (ts : List (Tok Kind)) (mi gi mj gj : Nat),
      (∀ n, n < (kindTexts .math ts).length → GoodVal '$' (mvals (mi + n))) →
      (∀ n, n < (kindTexts .graphie ts).length → GoodVal '!' (gvals (gi + n))) →
      ParVals (segs3r mvals gvals ts mi gi) (segs3r standM standG ts mj gj) := by
  intro ts
  induction ts with
  | nil => intro mi gi mj gj _ _; exact .nil
  | cons t ts ih =>
    intro mi gi mj gj hv hg
    cases t with
    | chr c => exact .same [c] _ _ (ih mi gi mj gj hv hg)
    | tok k cs =>
      cases k with
      | math =>
        have hlen : kindTexts .math (Tok.tok Kind.math cs :: ts) =
            cs :: kindTexts .math ts := rfl
        have hgv : GoodVal '$' (mvals mi) := by
          have := hv 0 (by rw [hlen]; simp)
          simpa using this
        refine .val (mvals mi) '$' _ _ hgv.1 (Or.inl rfl) hgv.2.1 hgv.2.2.1 hgv.2.2.2 ?_
        refine ih (mi + 1) gi (mj + 1) gj ?_ hg
        intro n hn
        have h2 := hv (n + 1) (by rw [hlen]; simpa using Nat.succ_lt_succ hn)
        rwa [show mi + (n + 1) = (mi + 1) + n by omega] at h2
      | graphie =>
        have hlen : kindTexts .graphie (Tok.tok Kind.graphie cs :: ts) =
            cs :: kindTexts .graphie ts := rfl
        have hgv : GoodVal '!' (gvals gi) := by
          have := hg 0 (by rw [hlen]; simp)
          simpa using this
        refine .val (gvals gi) '!' _ _ hgv.1 (Or.inr (Or.inl rfl)) hgv.2.1
          hgv.2.2.1 hgv.2.2.2 ?_
        refine ih mi (gi + 1) mj (gj + 1) hv ?_
        intro n hn
        have h2 := hg (n + 1) (by rw [hlen]; simpa using Nat.succ_lt_succ hn)
        rwa [show gi + (n + 1) = (gi + 1) + n by omega] at h2
      | widget => exact .hit _ _ (ih mi gi mj gj hv hg)

theorem lineFinal_eq (lang : Lang) (mvals gvals wvals : Nat → List Char) :
    ∀ (ts : List (Tok Kind)) (mi gi wi : Nat),
      (∀ n cs, (kindTexts .math ts).get? n = some cs →
        mvals (mi + n) = translateMath cs lang) →
      (∀ n cs, (kindTexts .graphie ts).get? n = some cs → gvals (gi + n) = cs) →
      (∀ n cs, (kindTexts .widget ts).get? n = some cs → wvals (wi + n) = cs) →
      lineFinal mvals gvals wvals ts mi gi wi =
        toksSubstEach (fun m => translateMath m lang) (projK .math ts) := by
  intro ts
  induction ts with
  | nil => intro mi gi wi _ _ _; rfl
  | cons t ts ih =>
    intro mi gi wi hm hg hw
    cases t with
    | chr c =>
      show c :: lineFinal mvals gvals wvals ts mi gi wi = _
      rw [ih mi gi wi hm hg hw]
      rfl
    | tok k cs =>
      cases k with
      | math =>
        show mvals mi ++ lineFinal mvals gvals wvals ts (mi + 1) gi wi =
          toksSubstEach (fun m => translateMath m lang) (Tok.tok () cs :: projK .math ts)
        have hv0 : mvals mi = translateMath cs lang := by
          have := hm 0 cs rfl
          simpa using this
        rw [ih (mi + 1) gi wi ?hm2 hg hw]
        · show mvals mi ++ _ = translateMath cs lang ++ _
          rw [hv0]
        case hm2 =>
          intro n cs2 hcs2
          have h2 := hm (n + 1) cs2 (by
            rw [show kindTexts Kind.math (Tok.tok Kind.math cs :: ts) =
              cs :: kindTexts Kind.math ts from rfl]
            simpa using hcs2)
          rwa [show mi + (n + 1) = (mi + 1) + n by omega] at h2
      | graphie =>
        show gvals gi ++ lineFinal mvals gvals wvals ts mi (gi + 1) wi =
          toksSubstEach (fun m => translateMath m lang) (cs.map .chr ++ projK .math ts)
        have hv0 : gvals gi = cs := by
          have := hg 0 cs rfl
          simpa using this
        rw [toksSubstEach_append, toksSubstEach_map_chr, ih mi (gi + 1) wi hm ?hg2 hw, hv0]
        case hg2 =>
          intro n cs2 hcs2
          have h2 := hg (n + 1) cs2 (by
            rw [show kindTexts Kind.graphie (Tok.tok Kind.graphie cs :: ts) =
              cs :: kindTexts Kind.graphie ts from rfl]
            simpa using hcs2)
          rwa [show gi + (n + 1) = (gi + 1) + n by omega] at h2
      | widget =>
        show wvals wi ++ lineFinal mvals gvals wvals ts mi gi (wi + 1) =
          toksSubstEach (fun m => translateMath m lang) (cs.map .chr ++ projK .math ts)
        have hv0 : wvals wi = cs := by
          have := hw 0 cs rfl
          simpa using this
        rw [toksSubstEach_append, toksSubstEach_map_chr, ih mi gi (wi + 1) hm hg ?hw2, hv0]
        case hw2 =>
          intro n cs2 hcs2
          have h2 := hw (n + 1) cs2 (by
            rw [show kindTexts Kind.widget (Tok.tok Kind.widget cs :: ts) =
              cs :: kindTexts Kind.widget ts from rfl]
            simpa using hcs2)
          rwa [show wi + (n + 1) = (wi + 1) + n by omega] at h2

theorem subLine_unfold (t : Template) (m g w : List (List Char)) (l : List Char)
    (mi gi wi : Nat) : subLine t m g w l mi gi wi =
    ((toksSubstCb (lookupVal t.widgetMapping w)
        (tokenize (litStep widgetPH)
          (toksSubstCb (lookupVal t.graphieMapping g)
            (tokenize (litStep graphiePH)
              (toksSubstCb (lookupVal t.mathMapping m)
                (tokenize (litStep mathPH) l) mi).1) gi).1) wi).1,
     (toksSubstCb (lookupVal t.mathMapping m) (tokenize (litStep mathPH) l) mi).2,
     (toksSubstCb (lookupVal t.graphieMapping g)
        (tokenize (litStep graphiePH)
          (toksSubstCb (lookupVal t.mathMapping m)
            (tokenize (litStep mathPH) l) mi).1) gi).2,
     (toksSubstCb (lookupVal t.widgetMapping w)
        (tokenize (litStep widgetPH)
          (toksSubstCb (lookupVal t.graphieMapping g)
            (tokenize (litStep graphiePH)
              (toksSubstCb (lookupVal t.mathMapping m)
                (tokenize (litStep mathPH) l) mi).1) gi).1) wi).2) := rfl

theorem subLine_eq (t : Template) (maths graphies widgets : List (List Char)) (lang : Lang)
    (l : List Char) (hok : lineOk l = true) (mi gi wi : Nat)
    (hm : ∀ n cs, (kindTexts .math (tokenize mgwStep l)).get? n = some cs →
      lookupVal t.mathMapping maths (mi + n) = translateMath cs lang ∧
      GoodVal '$' (lookupVal t.mathMapping maths (mi + n)))
    (hg : ∀ n cs, (kindTexts .graphie (tokenize mgwStep l)).get? n = some cs →
      lookupVal t.graphieMapping graphies (gi + n) = cs ∧
      GoodVal '!' (lookupVal t.graphieMapping graphies (gi + n)))
    (hw : ∀ n cs, (kindTexts .widget (tokenize mgwStep l)).get? n = some cs →
      lookupVal t.widgetMapping widgets (wi + n) = cs) :
    subLine t maths graphies widgets (phLine l) mi gi wi =
      (toksSubstEach (fun m => translateMath m lang) (projK .math (tokenize mgwStep l)),
       mi + (kindTexts .math (tokenize mgwStep l)).length,
       gi + (kindTexts .graphie (tokenize mgwStep l)).length,
       wi + (kindTexts .widget (tokenize mgwStep l)).length) := by
  rw [lineOk] at hok
  simp only [Bool.and_eq_true, decide_eq_true_eq] at hok
  obtain ⟨⟨⟨⟨⟨c1, c2⟩, c3⟩, c4⟩, c5⟩, c6⟩ := hok
  have hmlt : ∀ n, n < (kindTexts .math (tokenize mgwStep l)).length →
      GoodVal '$' (lookupVal t.mathMapping maths (mi + n)) := by
    intro n hn
    exact (hm n _ (List.get?_eq_get hn)).2
  have hglt : ∀ n, n < (kindTexts .graphie (tokenize mgwStep l)).length →
      GoodVal '!' (lookupVal t.graphieMapping graphies (gi + n)) := by
    intro n hn
    exact (hg n _ (List.get?_eq_get hn)).2
  have e1 : tokenize (litStep mathPH) (phLine l) =
      catMap (segToks mathPH) (segs1 (tokenize mgwStep l)) := by
    rw [phLine_eq c3]
    exact c4
  have hscan2 : tokenize (litStep graphiePH)
      (segsText graphiePH (segs2r (lookupVal t.mathMapping maths) (tokenize mgwStep l) mi)) =
      catMap (segToks graphiePH)
        (segs2r (lookupVal t.mathMapping maths) (tokenize mgwStep l) mi) :=
    scan_transfer (by decide) (by decide) (by decide)
      (parvals_segs2r _ _ mi 0 hmlt) c5
  have hscan3 : tokenize (litStep widgetPH)
      (segsText widgetPH (segs3r (lookupVal t.mathMapping maths)
        (lookupVal t.graphieMapping graphies) (tokenize mgwStep l) mi gi)) =
      catMap (segToks widgetPH)
        (segs3r (lookupVal t.mathMapping maths)
          (lookupVal t.graphieMapping graphies) (tokenize mgwStep l) mi gi) :=
    scan_transfer (by decide) (by decide) (by decide)
      (parvals_segs3r _ _ _ mi gi 0 0 hmlt hglt) c6
  rw [subLine_unfold, e1, pass1_subst]
  dsimp only
  rw [hscan2, pass2_subst]
  dsimp only
  rw [hscan3, pass3_subst]
  dsimp only
  rw [lineFinal_eq lang _ _ _ _ mi gi wi
    (fun n cs h => (hm n cs h).1) (fun n cs h => (hg n cs h).1) hw]

/-! ## Claim C2: whole-string structure and mapping values -/

theorem toksMatches_projK (k : Kind) : ∀ ts, toksMatches (projK k ts) = kindTexts k ts := by
  intro ts
  induction ts with
  | nil => rfl
  | cons t ts ih =>
    cases t with
    | chr c =>
      show toksMatches (Tok.chr c :: projK k ts) = kindTexts k ts
      simp only [toksMatches]
      exact ih
    | tok k2 cs =>
      by_cases hk : k2 = k
      · rw [show projK k (Tok.tok k2 cs :: ts) = Tok.tok () cs :: projK k ts from by
            rw [projK, if_pos hk],
          show kindTexts k (Tok.tok k2 cs :: ts) = cs :: kindTexts k ts from by
            rw [kindTexts, if_pos hk]]
        simp only [toksMatches]
        rw [ih]
      · rw [show projK k (Tok.tok k2 cs :: ts) = cs.map .chr ++ projK k ts from by
            rw [projK, if_neg hk],
          show kindTexts k (Tok.tok k2 cs :: ts) = kindTexts k ts from by
            rw [kindTexts, if_neg hk],
          toksMatches_append, toksMatches_map_chr, ih]
        rfl

theorem toksMatches_projGlobal (k : Kind) : ∀ lls,
    toksMatches (projGlobal k lls) = catMap (kindTexts k) lls := by
  intro lls
  induction lls with
  | nil => rfl
  | cons l ls ih =>
    cases ls with
    | nil =>
      show toksMatches (projK k l) = kindTexts k l ++ catMap (kindTexts k) []
      rw [toksMatches_projK]
      show kindTexts k l = kindTexts k l ++ []
      rw [List.append_nil]
    | cons l2 ls2 =>
      show toksMatches (projK k l ++ .chr '\n' :: .chr '\n' :: projGlobal k (l2 :: ls2)) = _
      rw [toksMatches_append, toksMatches_projK]
      show kindTexts k l ++ toksMatches (projGlobal k (l2 :: ls2)) =
        kindTexts k l ++ catMap (kindTexts k) (l2 :: ls2)
      rw [ih]

theorem catMap_map (f : β → List γ) (g : α → β) :
    ∀ l : List α, catMap f (l.map g) = catMap (fun x => f (g x)) l := by
  intro l
  induction l with
  | nil => rfl
  | cons x xs ih =>
    show f (g x) ++ catMap f (xs.map g) = f (g x) ++ catMap (fun x => f (g x)) xs
    rw [ih]

theorem matchesOf_lines {k : Kind} {T : List Char} (h : alignedK k T = true) :
    matchesOf k T = catMap (fun l => kindTexts k (tokenize mgwStep l)) (splitLB T) := by
  rw [alignedK, decide_eq_true_eq] at h
  rw [matchesOf, h, toksMatches_projGlobal, catMap_map]

theorem toksSubstEach_projGlobal (g : List Char → List Char) (k : Kind) : ∀ lls,
    toksSubstEach g (projGlobal k lls) =
      joinLB (lls.map (fun lt => toksSubstEach g (projK k lt))) := by
  intro lls
  induction lls with
  | nil => rfl
  | cons l ls ih =>
    cases ls with
    | nil => rfl
    | cons l2 ls2 =>
      show toksSubstEach g (projK k l ++ .chr '\n' :: .chr '\n' :: projGlobal k (l2 :: ls2)) = _
      rw [toksSubstEach_append]
      show toksSubstEach g (projK k l) ++
          '\n' :: '\n' :: toksSubstEach g (projGlobal k (l2 :: ls2)) = _
      rw [ih]
      rfl

theorem rewriteMaths_lines {T : List Char} {lang : Lang} (h : alignedK .math T = true) :
    rewriteMaths T lang =
      joinLB ((splitLB T).map (fun l =>
        toksSubstEach (fun m => translateMath m lang) (projK .math (tokenize mgwStep l)))) := by
  rw [alignedK, decide_eq_true_eq] at h
  have h2 : tokenize mathStep T =
      projGlobal .math ((splitLB T).map (tokenize mgwStep)) := h
  rw [rewriteMaths, h2, toksSubstEach_projGlobal, List.map_map]
  rfl

theorem popGo_eq (t : Template) (maths graphies widgets : List (List Char)) (lang : Lang) :
    ∀ (lls es : List (List Char)) (mi gi wi : Nat),
      es.length = lls.length →
      (∀ l ∈ lls, lineOk l = true) →
      (∀ n cs, (catMap (fun l => kindTexts .math (tokenize mgwStep l)) lls).get? n = some cs →
        lookupVal t.mathMapping maths (mi + n) = translateMath cs lang ∧
        GoodVal '$' (lookupVal t.mathMapping maths (mi + n))) →
      (∀ n cs, (catMap (fun l => kindTexts .graphie (tokenize mgwStep l)) lls).get? n = some cs →
        lookupVal t.graphieMapping graphies (gi + n) = cs ∧
        GoodVal '!' (lookupVal t.graphieMapping graphies (gi + n))) →
      (∀ n cs, (catMap (fun l => kindTexts .widget (tokenize mgwStep l)) lls).get? n = some cs →
        lookupVal t.widgetMapping widgets (wi + n) = cs) →
      popGo t maths graphies widgets es (lls.map phLine) mi gi wi =
        some (lls.map (fun l =>
          toksSubstEach (fun m => translateMath m lang) (projK .math (tokenize mgwStep l)))) := by
  intro lls
  induction lls with
  | nil =>
    intro es mi gi wi hlen _ _ _ _
    cases es with
    | nil => rfl
    | cons e es2 => simp at hlen
  | cons l ls ih =>
    intro es mi gi wi hlen hok hm hg hw
    cases es with
    | nil => simp at hlen
    | cons e es2 =>
      have hm1 : ∀ n cs, (kindTexts .math (tokenize mgwStep l)).get? n = some cs →
          lookupVal t.mathMapping maths (mi + n) = translateMath cs lang ∧
          GoodVal '$' (lookupVal t.mathMapping maths (mi + n)) := by
        intro n cs hcs
        apply hm n cs
        show (kindTexts .math (tokenize mgwStep l) ++
          catMap (fun l => kindTexts .math (tokenize mgwStep l)) ls).get? n = some cs
        rw [List.get?_append (List.get?_eq_some.1 hcs).1]
        exact hcs
      have hg1 : ∀ n cs, (kindTexts .graphie (tokenize mgwStep l)).get? n = some cs →
          lookupVal t.graphieMapping graphies (gi + n) = cs ∧
          GoodVal '!' (lookupVal t.graphieMapping graphies (gi + n)) := by
        intro n cs hcs
        apply hg n cs
        show (kindTexts .graphie (tokenize mgwStep l) ++
          catMap (fun l => kindTexts .graphie (tokenize mgwStep l)) ls).get? n = some cs
        rw [List.get?_append (List.get?_eq_some.1 hcs).1]
        exact hcs
      have hw1 : ∀ n cs, (kindTexts .widget (tokenize mgwStep l)).get? n = some cs →
          lookupVal t.widgetMapping widgets (wi + n) = cs := by
        intro n cs hcs
        apply hw n cs
        show (kindTexts .widget (tokenize mgwStep l) ++
          catMap (fun l => kindTexts .widget (tokenize mgwStep l)) ls).get? n = some cs
        rw [List.get?_append (List.get?_eq_some.1 hcs).1]
        exact hcs
      have hm2 : ∀ n cs, (catMap (fun l => kindTexts .math (tokenize mgwStep l)) ls).get? n =
          some cs →
          lookupVal t.mathMapping maths
            ((mi + (kindTexts .math (tokenize mgwStep l)).length) + n) = translateMath cs lang ∧
          GoodVal '$' (lookupVal t.mathMapping maths
            ((mi + (kindTexts .math (tokenize mgwStep l)).length) + n)) := by
        intro n cs hcs
        have h2 := hm ((kindTexts .math (tokenize mgwStep l)).length + n) cs (by
          show (kindTexts .math (tokenize mgwStep l) ++
            catMap (fun l => kindTexts .math (tokenize mgwStep l)) ls).get? _ = some cs
          rw [List.get?_append_right (by omega)]
          simpa using hcs)
        rwa [show mi + ((kindTexts .math (tokenize mgwStep l)).length + n) =
          (mi + (kindTexts .math (tokenize mgwStep l)).length) + n by omega] at h2
      have hg2 : ∀ n cs, (catMap (fun l => kindTexts .graphie (tokenize mgwStep l)) ls).get? n =
          some cs →
          lookupVal t.graphieMapping graphies
            ((gi + (kindTexts .graphie (tokenize mgwStep l)).length) + n) = cs ∧
          GoodVal '!' (lookupVal t.graphieMapping graphies
            ((gi + (kindTexts .graphie (tokenize mgwStep l)).length) + n)) := by
        intro n cs hcs
        have h2 := hg ((kindTexts .graphie (tokenize mgwStep l)).length + n) cs (by
          show (kindTexts .graphie (tokenize mgwStep l) ++
            catMap (fun l => kindTexts .graphie (tokenize mgwStep l)) ls).get? _ = some cs
          rw [List.get?_append_right (by omega)]
          simpa using hcs)
        rwa [show gi + ((kindTexts .graphie (tokenize mgwStep l)).length + n) =
          (gi + (kindTexts .graphie (tokenize mgwStep l)).length) + n by omega] at h2
      have hw2 : ∀ n cs, (catMap (fun l => kindTexts .widget (tokenize mgwStep l)) ls).get? n =
          some cs →
          lookupVal t.widgetMapping widgets
            ((wi + (kindTexts .widget (tokenize mgwStep l)).length) + n) = cs := by
        intro n cs hcs
        have h2 := hw ((kindTexts .widget (tokenize mgwStep l)).length + n) cs (by
          show (kindTexts .widget (tokenize mgwStep l) ++
            catMap (fun l => kindTexts .widget (tokenize mgwStep l)) ls).get? _ = some cs
          rw [List.get?_append_right (by omega)]
          simpa using hcs)
        rwa [show wi + ((kindTexts .widget (tokenize mgwStep l)).length + n) =
          (wi + (kindTexts .widget (tokenize mgwStep l)).length) + n by omega] at h2
      show popGo t maths graphies widgets (e :: es2) (phLine l :: ls.map phLine) mi gi wi = _
      rw [popGo]
      rw [subLine_eq t maths graphies widgets lang l (hok l (by simp)) mi gi wi hm1 hg1 hw1]
      dsimp only
      rw [ih es2 _ _ _ (by simpa using hlen) (fun l2 hl2 => hok l2 (by simp [hl2]))
        hm2 hg2 hw2]
      rfl

theorem mapping_val_id {E T : List Char} {lang : Lang} {k : Kind}
    (hk : k ≠ .math) {dict : List (List Char × List Char)} {mp : List Nat}
    (hmap : getMapping E T lang k dict = .ok mp) :
    ∀ n cs, (matchesOf k T).get? n = some cs →
      lookupVal mp (matchesOf k E) n = cs ∧ cs ∈ matchesOf k E := by
  intro n cs hcs
  rw [getMapping] at hmap
  have hget := mapOutputs_ok_get _ mp hmap n cs hcs
  have hlen := mapOutputs_ok_length _ mp hmap
  have hpin : procInputs k dict E = matchesOf k E := by
    rw [procInputs, if_neg hk]
  have hproc : procOutput k lang cs = cs := by
    rw [procOutput, if_neg hk]
  cases hj : jsIndexOf (procOutput k lang cs) (procInputs k dict E) with
  | none =>
    exfalso
    rw [hj] at hget
    have hn : n < (matchesOf k T).length := (List.get?_eq_some.1 hcs).1
    have h2 : mp.get? n = none := hget
    rw [List.get?_eq_none] at h2
    omega
  | some i =>
    rw [hj] at hget
    have hspec := (jsIndexOf_spec _ _ i hj).1
    rw [hpin, hproc] at hspec
    constructor
    · show (match mp.get? n with
        | some j => ((matchesOf k E).get? j).getD undefinedS
        | none => undefinedS) = cs
      rw [hget]
      show ((matchesOf k E).get? i).getD undefinedS = cs
      rw [hspec]
      rfl
    · exact List.get?_mem hspec

theorem mapping_val_math {E T : List Char} {lang : Lang} {mp : List Nat}
    (hmap : getMapping E T lang .math [] = .ok mp) :
    ∀ n cs, (matchesOf .math T).get? n = some cs →
      lookupVal mp ((matchesOf .math E).map (fun m => translateMath m lang)) n =
        translateMath cs lang ∧
      translateMath cs lang ∈ matchesOf .math E := by
  intro n cs hcs
  rw [getMapping] at hmap
  have hget := mapOutputs_ok_get _ mp hmap n cs hcs
  have hlen := mapOutputs_ok_length _ mp hmap
  have hpin : procInputs .math [] E = matchesOf .math E := by
    rw [procInputs, if_pos rfl]
    rw [show (applyDict (jsEntries ([] : List (List Char × List Char)))) =
      (fun s : List Char => s) from rfl]
    rw [show (fun s : List Char => s) = id from rfl, List.map_id]
  have hproc : procOutput .math lang cs = translateMath cs lang := by
    rw [procOutput, if_pos rfl]
  cases hj : jsIndexOf (procOutput .math lang cs) (procInputs .math [] E) with
  | none =>
    exfalso
    rw [hj] at hget
    have hn : n < (matchesOf .math T).length := (List.get?_eq_some.1 hcs).1
    have h2 : mp.get? n = none := hget
    rw [List.get?_eq_none] at h2
    omega
  | some i =>
    rw [hj] at hget
    have hspec := (jsIndexOf_spec _ _ i hj).1
    rw [hpin, hproc] at hspec
    constructor
    · show (match mp.get? n with
        | some j => (((matchesOf .math E).map (fun m => translateMath m lang)).get? j).getD
            undefinedS
        | none => undefinedS) = translateMath cs lang
      rw [hget]
      show (((matchesOf .math E).map (fun m => translateMath m lang)).get? i).getD
          undefinedS = translateMath cs lang
      rw [List.get?_map, hspec]
      show translateMath (translateMath cs lang) lang = translateMath cs lang
      exact translateMath_idem cs lang
    · exact List.get?_mem hspec

/-- Claim C2, amended: the round-trip law holds when, beyond the absence of
natural-language fragments, the pair satisfies the interference-freedom
safety conditions `RoundTripSafe` (no double underscore, equal paragraph
counts, and occurrence scans that agree with the one-pass token structure);
the unconditioned claim is refuted by `claimC2_cex`. -/
theorem claimC2 (E T : List Char) (lang : Lang) (t : Template)
    (h : createTemplate E T lang = .ok t)
    (hs : RoundTripSafe E T = true) :
    populateTemplate t E lang = some (rewriteMaths T lang) := by
  rw [RoundTripSafe] at hs
  simp only [Bool.and_eq_true, Bool.not_eq_true', decide_eq_true_eq] at hs
  obtain ⟨⟨⟨⟨⟨⟨⟨⟨htE, htT⟩, hdE⟩, hdT⟩, hlen⟩, ham⟩, hag⟩, haw⟩, hall⟩ := hs
  have hdict : getMathDictionary E T = [] := getMathDictionary_nil htE hdE
  rw [createTemplate] at h
  cases hmm : getMapping E T lang .math (getMathDictionary E T) with
  | error em => rw [hmm] at h; cases h
  | ok mm =>
    rw [hmm] at h
    cases hgm : getMapping E T lang .graphie (getMathDictionary E T) with
    | error eg => rw [hgm] at h; cases h
    | ok gm =>
      rw [hgm] at h
      cases hwm : getMapping E T lang .widget (getMathDictionary E T) with
      | error ew => rw [hwm] at h; cases h
      | ok wm =>
        rw [hwm] at h
        injection h with h2
        subst h2
        rw [hdict] at hmm hgm hwm ⊢
        have hml := matchesOf_lines ham
        have hgl := matchesOf_lines hag
        have hwl := matchesOf_lines haw
        have hvm := mapping_val_math hmm
        have hvg := mapping_val_id (by decide) hgm
        have hvw := mapping_val_id (by decide) hwm
        rw [populateTemplate]
        dsimp only
        rw [popGo_eq ⟨(splitLB T).map phLine, mm, gm, wm, []⟩
          ((matchesOf .math E).map
            (fun m => applyDict (jsEntries ([] : List (List Char × List Char)))
              (translateMath m lang)))
          (matchesOf .graphie E) (matchesOf .widget E) lang
          (splitLB T) (splitLB E) 0 0 0 hlen
          (List.all_eq_true.1 hall)
          ?hm ?hg ?hw]
        · rw [Option.map_some', rewriteMaths_lines ham]
        case hm =>
          intro n cs hcs
          rw [Nat.zero_add]
          have hcs2 : (matchesOf .math T).get? n = some cs := by rw [hml]; exact hcs
          obtain ⟨hval, hmem⟩ := hvm n cs hcs2
          have hval2 : lookupVal mm
              ((matchesOf .math E).map
                (fun m => applyDict (jsEntries ([] : List (List Char × List Char)))
                  (translateMath m lang))) n = translateMath cs lang := hval
          refine ⟨hval2, ?_⟩
          rw [hval2]
          exact matches_good_math hdE _ hmem
        case hg =>
          intro n cs hcs
          rw [Nat.zero_add]
          have hcs2 : (matchesOf .graphie T).get? n = some cs := by rw [hgl]; exact hcs
          obtain ⟨hval, hmem⟩ := hvg n cs hcs2
          refine ⟨hval, ?_⟩
          rw [show (⟨(splitLB T).map phLine, mm, gm, wm, []⟩ : Template).graphieMapping =
            gm from rfl, hval]
          exact matches_good_graphie hdE _ hmem
        case hw =>
          intro n cs hcs
          rw [Nat.zero_add]
          have hcs2 : (matchesOf .widget T).get? n = some cs := by rw [hwl]; exact hcs
          exact (hvw n cs hcs2).1

/-- Counterexample to claim C2 as stated: with `E = "$1$"` and
`T = "$1$\n\n$1$"` (no `\text` fragments on either side), `createTemplate`
succeeds, yet populating the template with `E` returns `"$1$"`, not the
rewritten form of `T` (which is `T` itself): the template's line list is
driven by the English string's paragraphs, so `T`'s second paragraph is
dropped. -/
theorem claimC2_cex :
    occursIn "\\text\x7b".data "$1$".data = false ∧
    occursIn "\\text\x7b".data "$1$\n\n$1$".data = false ∧
    createTemplate "$1$".data "$1$\n\n$1$".data none =
      .ok ⟨[mathPH, mathPH], [0, 0], [], [], []⟩ ∧
    populateTemplate ⟨[mathPH, mathPH], [0, 0], [], [], []⟩ "$1$".data none =
      some "$1$".data ∧
    rewriteMaths "$1$\n\n$1$".data none = "$1$\n\n$1$".data ∧
    "$1$".data ≠ "$1$\n\n$1$".data :=
  ⟨by decide, by decide, by decide, by decide, by decide, by decide⟩

/-- Concrete application of `claimC2`: a two-paragraph pair with reordered
math occurrences satisfies the safety conditions, and populating the built
template with the English string returns the translated string with its
maths rewritten for Portuguese. -/
theorem claimC2_witness :
    createTemplate "Simplify $2/4$\n\nhint $x$".data
        "Simplifz $x$\n\nhintz $2/4$".data (some "pt") =
      .ok ⟨["Simplifz ".data ++ mathPH, "hintz ".data ++ mathPH], [1, 0], [], [], []⟩ ∧
    RoundTripSafe "Simplify $2/4$\n\nhint $x$".data
      "Simplifz $x$\n\nhintz $2/4$".data = true ∧
    populateTemplate ⟨["Simplifz ".data ++ mathPH, "hintz ".data ++ mathPH],
        [1, 0], [], [], []⟩ "Simplify $2/4$\n\nhint $x$".data (some "pt") =
      some (rewriteMaths "Simplifz $x$\n\nhintz $2/4$".data (some "pt")) :=
  ⟨by decide, by decide,
   claimC2 "Simplify $2/4$\n\nhint $x$".data "Simplifz $x$\n\nhintz $2/4$".data
     (some "pt")
     ⟨["Simplifz ".data ++ mathPH, "hintz ".data ++ mathPH], [1, 0], [], [], []⟩
     (by decide) (by decide)⟩

end TA
